import Mathlib

/-!
# Route extractor (`extract-routes.js`): shallow embedding and verified properties

The script reconstructs the navigable routes of a single-page application from
its source tree.  This development embeds its functions as Lean definitions and
proves properties of them.

Modelling conventions.

* A JavaScript string is the list of its UTF-16 code units (`JSString`).  All
  string operations used by the script (`includes`, `startsWith`, `replace`,
  `trim`, `===`, the default `sort` order, regular expressions without the `u`
  flag) work on code units.
* The file system is a record of the four `fs` calls the script makes.  A call
  that throws is `none`.
* A computation ends in a value (`ok`), in an uncaught exception or
  `process.exit(1)` (`error`), or exceeds the recursion depth given as fuel
  (`diverge`).
* `console.log` output is not modelled.
* `path` is Node's POSIX implementation.
-/

namespace ExtractRoutes

/-! ## Strings -/

/-- A JavaScript string: its UTF-16 code units. -/
abbrev JSString := List Nat

/-- The code units of one Unicode scalar value (a surrogate pair above the BMP). -/
def codeUnits (c : Char) : List Nat :=
  if c.toNat < 65536 then [c.toNat]
  else [55296 + (c.toNat - 65536) / 1024, 56320 + (c.toNat - 65536) % 1024]

/-- The JavaScript string written as the literal `s`. -/
def js (s : String) : JSString := s.toList.flatMap codeUnits

/-- `s.startsWith(p)`. -/
def startsWith (s p : JSString) : Bool := p.isPrefixOf s

/-- `s.endsWith(p)`. -/
def endsWith (s p : JSString) : Bool := p.isSuffixOf s

/-- `s.includes(sub)`: `sub` occurs in `s` at some position. -/
def includes : JSString → JSString → Bool
  | [], sub => sub.isPrefixOf []
  | c :: cs, sub => sub.isPrefixOf (c :: cs) || includes cs sub

/-- `s.replace(pat, rep)` with a string pattern: the first occurrence only. -/
def replaceFirst : JSString → JSString → JSString → JSString
  | [], pat, rep => if pat.isPrefixOf [] then rep else []
  | c :: cs, pat, rep =>
    if pat.isPrefixOf (c :: cs) then rep ++ (c :: cs).drop pat.length
    else c :: replaceFirst cs pat rep

/-- The code units matched by `\s` and removed by `trim()`: WhiteSpace and
LineTerminator of ECMAScript. -/
def isWhiteSpace (c : Nat) : Bool :=
  c == 9 || c == 10 || c == 11 || c == 12 || c == 13 || c == 32 || c == 160 ||
  c == 5760 || (8192 ≤ c && c ≤ 8202) || c == 8232 || c == 8233 || c == 8239 ||
  c == 8287 || c == 12288 || c == 65279

/-- LineTerminator: what `.` does not match without the `s` flag. -/
def isLineTerminator (c : Nat) : Bool :=
  c == 10 || c == 13 || c == 8232 || c == 8233

/-- The class `['"]`. -/
def isQuote (c : Nat) : Bool := c == 39 || c == 34

/-- The class `['"\s]`. -/
def isQuoteOrSpace (c : Nat) : Bool := isQuote c || isWhiteSpace c

/-- Remove the longest suffix whose code units satisfy `p`. -/
def dropWhileEnd (p : Nat → Bool) (s : JSString) : JSString :=
  (s.reverse.dropWhile p).reverse

/-- `s.trim()`. -/
def trim (s : JSString) : JSString := dropWhileEnd isWhiteSpace (s.dropWhile isWhiteSpace)

/-! ## Regular expressions

A backtracking matcher for the fragment of ECMAScript regular expressions that
the script's `exec` loops use: single-code-unit classes, concatenation,
greedy and lazy repetition of a class, a greedy optional group, and capture
groups.  Alternatives are tried in ECMAScript's order, so the first successful
path is the match `exec` reports. -/

/-- Regular expressions (the fragment used by the scanners). -/
inductive Re where
  /-- One code unit satisfying the class. -/
  | cls (p : Nat → Bool)
  /-- The empty pattern. -/
  | eps
  /-- Concatenation. -/
  | seq (a b : Re)
  /-- `c*` (greedy) or `c*?` (lazy) over a class `c`. -/
  | star (greedy : Bool) (p : Nat → Bool)
  /-- `(?:a)?`, greedy. -/
  | opt (a : Re)
  /-- Capture group number `i` (counted from 0). -/
  | group (i : Nat) (a : Re)

/-- The captures of a match: `none` is `undefined`. -/
abbrev Caps := List (Option JSString)

/-- Greedy `c*`: take as many as possible, give back one at a time. -/
def starGreedy {α : Type} (p : Nat → Bool) : JSString → (JSString → Option α) → Option α
  | [], k => k []
  | c :: cs, k =>
    if p c then
      match starGreedy p cs k with
      | some r => some r
      | none => k (c :: cs)
    else k (c :: cs)

/-- Lazy `c*?`: take as few as possible, take one more on failure. -/
def starLazy {α : Type} (p : Nat → Bool) : JSString → (JSString → Option α) → Option α
  | [], k => k []
  | c :: cs, k =>
    match k (c :: cs) with
    | some r => some r
    | none => if p c then starLazy p cs k else none

/-- Match `r` at the start of `s`, then continue with `k` on the rest of the
input; the first successful path wins. -/
def Re.run {α : Type} : Re → JSString → Caps → (JSString → Caps → Option α) → Option α
  | .cls _, [], _, _ => none
  | .cls p, c :: cs, caps, k => if p c then k cs caps else none
  | .eps, s, caps, k => k s caps
  | .seq a b, s, caps, k => a.run s caps (fun s1 caps1 => b.run s1 caps1 k)
  | .star true p, s, caps, k => starGreedy p s (fun s1 => k s1 caps)
  | .star false p, s, caps, k => starLazy p s (fun s1 => k s1 caps)
  | .opt a, s, caps, k =>
    match a.run s caps k with
    | some r => some r
    | none => k s caps
  | .group i a, s, caps, k =>
    a.run s caps (fun s1 caps1 => k s1 (caps1.set i (some (s.take (s.length - s1.length)))))

/-- The literal string `lit` as a pattern. -/
def Re.lit : JSString → Re
  | [] => .eps
  | c :: cs => .seq (.cls (fun x => x == c)) (Re.lit cs)

/-- The pattern `c+` (greedy) over a class. -/
def Re.plus (p : Nat → Bool) : Re := .seq (.cls p) (.star true p)

/-- Concatenation of a list of patterns. -/
def Re.cat : List Re → Re
  | [] => .eps
  | r :: rs => .seq r (Re.cat rs)

/-- One call of `re.exec(s)` on the text from `lastIndex` on: the leftmost
match, as its captures (`ngroups` of them) and the text after the match. -/
def Re.exec (re : Re) (ngroups : Nat) : JSString → Option (Caps × JSString)
  | [] => re.run [] (List.replicate ngroups none) (fun rest caps => some (caps, rest))
  | c :: cs =>
    match re.run (c :: cs) (List.replicate ngroups none) (fun rest caps => some (caps, rest)) with
    | some r => some r
    | none => Re.exec re ngroups cs

/-- The loop `while ((match = re.exec(content)) !== null)` of a global
regular expression: the captures of the successive matches.  Every pattern of
the script starts with a literal, so a match consumes at least one code unit
and `fuel = content.length + 1` iterations are enough. -/
def Re.execAll (re : Re) (ngroups : Nat) : Nat → JSString → List Caps
  | 0, _ => []
  | fuel + 1, s =>
    match re.exec ngroups s with
    | none => []
    | some (caps, rest) => caps :: Re.execAll re ngroups fuel rest

/-- Capture `i` of a match (`match[i+1]`). -/
def capture (caps : Caps) (i : Nat) : Option JSString := (caps.get? i).join

/-! ## Outcomes and the file system -/

/-- How a computation ends. -/
inductive Outcome (α : Type) where
  /-- Normal completion with a value. -/
  | ok (a : α)
  /-- An uncaught exception or `process.exit(1)`. -/
  | error
  /-- The recursion depth given as fuel was exceeded. -/
  | diverge
  deriving DecidableEq

/-- Sequencing: the first abnormal outcome ends the computation. -/
def Outcome.bind {α β : Type} : Outcome α → (α → Outcome β) → Outcome β
  | .ok a, f => f a
  | .error, _ => .error
  | .diverge, _ => .diverge

/-- Apply a function to the value of a normal completion. -/
def Outcome.map {α β : Type} (f : α → β) : Outcome α → Outcome β
  | .ok a => .ok (f a)
  | .error => .error
  | .diverge => .diverge

/-- The `fs` calls of the script.  `none` is a thrown exception. -/
structure FileSystem where
  /-- The working directory `process.cwd()`, an absolute path. -/
  cwd : JSString
  /-- The call `fs.existsSync(p)`. -/
  existsSync : JSString → Bool
  /-- The call `fs.readFileSync(p, "utf8")`. -/
  readFileSync : JSString → Option JSString
  /-- The call `fs.readdirSync(p)`. -/
  readdirSync : JSString → Option (List JSString)
  /-- The call `fs.statSync(p).isDirectory()`. -/
  isDirectory : JSString → Option Bool

/-! ## Node's `path` module (POSIX) -/

/-- Split at every `/` (code unit 47). -/
def splitSlash : JSString → List JSString
  | [] => [[]]
  | c :: cs =>
    if c == 47 then [] :: splitSlash cs
    else
      match splitSlash cs with
      | [] => [[c]]
      | seg :: segs => (c :: seg) :: segs

/-- One step of `normalizeString`: the segments kept so far are held in
reverse order. -/
def normalizeStep (allowAboveRoot : Bool) (stack : List JSString) (seg : JSString) :
    List JSString :=
  if seg = [] ∨ seg = js "." then stack
  else if seg = js ".." then
    match stack with
    | [] => if allowAboveRoot then [js ".."] else []
    | top :: below =>
      if top = js ".." then (if allowAboveRoot then js ".." :: top :: below else top :: below)
      else below
  else seg :: stack

/-- Node's `normalizeString(path, allowAboveRoot, "/")`. -/
def normalizeString (path : JSString) (allowAboveRoot : Bool) : JSString :=
  (js "/").intercalate ((splitSlash path).foldl (normalizeStep allowAboveRoot) []).reverse

/-- The right-to-left loop of `path.resolve`: prepend arguments until one is
absolute. -/
def resolveLoop : List JSString → JSString → JSString × Bool
  | [], acc => (acc, false)
  | p :: ps, acc =>
    if p = [] then resolveLoop ps acc
    else if p.head? = some 47 then (p ++ js "/" ++ acc, true)
    else resolveLoop ps (p ++ js "/" ++ acc)

/-- `path.resolve(...args)` with working directory `cwd`. -/
def pathResolve (cwd : JSString) (args : List JSString) : JSString :=
  match resolveLoop (args.reverse ++ [cwd]) [] with
  | (resolved, true) => js "/" ++ normalizeString resolved false
  | (resolved, false) =>
    let r := normalizeString resolved true
    if r = [] then js "." else r

/-- `path.normalize(p)`. -/
def pathNormalize (p : JSString) : JSString :=
  if p = [] then js "."
  else
    let isAbsolute := p.head? = some 47
    let trailingSeparator := p.getLast? = some 47
    let q := normalizeString p (!isAbsolute)
    if q = [] then
      if isAbsolute then js "/" else if trailingSeparator then js "./" else js "."
    else
      let q := if trailingSeparator then q ++ js "/" else q
      if isAbsolute then js "/" ++ q else q

/-- `path.join(...args)`. -/
def pathJoin (args : List JSString) : JSString :=
  match args.filter (fun a => a ≠ []) with
  | [] => js "."
  | parts => pathNormalize ((js "/").intercalate parts)

/-- `path.dirname(p)`. -/
def pathDirname : JSString → JSString
  | [] => js "."
  | c0 :: rest =>
    match (rest.reverse.dropWhile (fun c => c == 47)).dropWhile (fun c => c != 47) with
    | [] => if c0 == 47 then js "/" else js "."
    | _ :: before => if c0 == 47 && before.isEmpty then js "//" else c0 :: before.reverse

/-! ## Module Parser: `parseRoutingModule` -/

/-- A route declaration as pushed by `parseRoutingModule`:
`{ path, loadChildren, fullPath }`; `loadChildren` is `undefined` when the
optional group of the pattern did not take part in the match. -/
structure RouteDeclaration where
  /-- The raw `path` string. -/
  path : JSString
  /-- The import reference of `loadChildren`, if captured. -/
  loadChildren : Option JSString
  /-- The file that declares the route. -/
  fullPath : JSString
  deriving DecidableEq

/-- The class `.` under the `s` flag: any code unit. -/
def anyUnit : Nat → Bool := fun _ => true

/-- The class `[^'"]`. -/
def notQuote : Nat → Bool := fun c => !isQuote c

/-- The pattern
`/{\s*path:\s*['"]([^'"]+)['"]\s*,?\s*(?:.*?loadChildren:\s*.*?import\(['"]([^'"]+)['"]\))?.*?}/gs`
of `parseRoutingModule`. -/
def pathRegex : Re :=
  Re.cat [
    Re.lit (js "\x7b"), .star true isWhiteSpace, Re.lit (js "path:"), .star true isWhiteSpace,
    .cls isQuote, .group 0 (Re.plus notQuote), .cls isQuote, .star true isWhiteSpace,
    .opt (Re.lit (js ",")), .star true isWhiteSpace,
    .opt (Re.cat [
      .star false anyUnit, Re.lit (js "loadChildren:"), .star true isWhiteSpace,
      .star false anyUnit, Re.lit (js "import("), .cls isQuote,
      .group 1 (Re.plus notQuote), .cls isQuote, Re.lit (js ")")]),
    .star false anyUnit, Re.lit (js "\x7d")]

/-- The guard `!routePath || routePath === "**" || routePath.includes(":")`
under which a match is skipped (`routePath` is `match[1]`). -/
def skipRoute (routePath : Option JSString) : Bool :=
  match routePath with
  | none => true
  | some p => p.isEmpty || p == js "**" || includes p (js ":")

/-- The body of the `while` loop of `parseRoutingModule` for one match. -/
def routeOfMatch (filePath : JSString) (caps : Caps) : Option RouteDeclaration :=
  if skipRoute (capture caps 0) then none
  else some ⟨(capture caps 0).getD [], capture caps 1, filePath⟩

/-- The array `routes` that `parseRoutingModule` builds from the text of the
file `filePath`. -/
def parseContent (content filePath : JSString) : List RouteDeclaration :=
  (pathRegex.execAll 2 (content.length + 1) content).filterMap (routeOfMatch filePath)

/-- The map `moduleCache`, in insertion order. -/
abbrev ModuleCache := List (JSString × List RouteDeclaration)

/-- The call `moduleCache.get(filePath)`; `none` when `has` is false. -/
def cacheGet : ModuleCache → JSString → Option (List RouteDeclaration)
  | [], _ => none
  | (k, v) :: rest, filePath => if k = filePath then some v else cacheGet rest filePath

/-- The call `moduleCache.set(filePath, routes)`. -/
def cacheSet : ModuleCache → JSString → List RouteDeclaration → ModuleCache
  | [], filePath, routes => [(filePath, routes)]
  | (k, v) :: rest, filePath, routes =>
    if k = filePath then (k, routes) :: rest else (k, v) :: cacheSet rest filePath routes

/-- The function `parseRoutingModule(filePath)`, with the cache passed
explicitly. -/
def parseRoutingModule (fs : FileSystem) (cache : ModuleCache) (filePath : JSString) :
    Outcome (List RouteDeclaration × ModuleCache) :=
  match cacheGet cache filePath with
  | some routes => .ok (routes, cache)
  | none =>
    match fs.readFileSync filePath with
    | none => .error
    | some content =>
      let routes := parseContent content filePath
      .ok (routes, cacheSet cache filePath routes)

/-! ## Module Resolver: `findRoutingModule` -/

/-- The call `searchPath.replace(/^.*?\/app\//, "")`: remove the shortest
prefix that ends in `/app/` and holds no line terminator before it. -/
def stripToApp : JSString → Option JSString
  | [] => none
  | c :: cs =>
    if (js "/app/").isPrefixOf (c :: cs) then some ((c :: cs).drop 5)
    else if isLineTerminator c then none
    else stripToApp cs

/-- The call `searchPath.replace(/\.ts$/, "-routing.module.ts")`. -/
def replaceTsSuffix (s : JSString) : JSString :=
  if endsWith s (js ".ts") then s.take (s.length - 3) ++ js "-routing.module.ts" else s

/-- The base path `searchPath` that `findRoutingModule` computes from the import
reference. -/
def searchPath (fs : FileSystem) (modulePath fromFile : JSString) : JSString :=
  if startsWith modulePath (js ".") then
    pathResolve fs.cwd [pathDirname fromFile, modulePath]
  else if startsWith modulePath (js "src/") then
    pathResolve fs.cwd [js ".", modulePath]
  else
    pathResolve fs.cwd [js "./src/app", (stripToApp modulePath).getD modulePath]

/-- The array `patterns` of `findRoutingModule`. -/
def patterns (base : JSString) : List JSString :=
  [ base ++ js "-routing.module.ts",
    base ++ js ".routing.module.ts",
    pathJoin [base, js "routing.module.ts"],
    replaceFirst base (js ".module") (js "-routing.module") ++ js ".ts",
    replaceTsSuffix base ]

/-- The loop `for (const pattern of patterns)` of `findRoutingModule`. -/
def firstExisting (fs : FileSystem) : List JSString → Option JSString
  | [] => none
  | pattern :: rest => if fs.existsSync pattern then some pattern else firstExisting fs rest

/-- The function `findRoutingModule(modulePath, fromFile)`; `none` is `null`. -/
def findRoutingModule (fs : FileSystem) (modulePath fromFile : JSString) : Option JSString :=
  firstExisting fs (patterns (searchPath fs modulePath fromFile))

/-! ## Route Tree Builder: `buildRouteTree` -/

/-- The expression `parentPath ? parentPath + "/" + route.path : route.path`
(a string is truthy when it is not empty). -/
def fullPathOf (parentPath routePath : JSString) : JSString :=
  if parentPath.length != 0 then parentPath ++ js "/" ++ routePath else routePath

/-- The child file a declaration leads to: `route.loadChildren` is truthy and
`findRoutingModule` returns a truthy path. -/
def childRoutingFile (fs : FileSystem) (route : RouteDeclaration) : Option JSString :=
  match route.loadChildren with
  | none => none
  | some ref =>
    if ref.length != 0 then
      match findRoutingModule fs ref route.fullPath with
      | none => none
      | some file => if file.length != 0 then some file else none
    else none

/-- The loop `for (const route of routes)` of `buildRouteTree`, with the array
`allRoutes` and the cache as state; `recurse` is the recursive call. -/
def buildLoop (fs : FileSystem)
    (recurse : ModuleCache → JSString → JSString → Outcome (List JSString × ModuleCache))
    (parentPath : JSString) :
    List RouteDeclaration → List JSString → ModuleCache → Outcome (List JSString × ModuleCache)
  | [], allRoutes, cache => .ok (allRoutes, cache)
  | route :: rest, allRoutes, cache =>
    let fullPath := fullPathOf parentPath route.path
    let allRoutes := allRoutes ++ [fullPath]
    match childRoutingFile fs route with
    | none => buildLoop fs recurse parentPath rest allRoutes cache
    | some child =>
      match recurse cache child fullPath with
      | .ok (childRoutes, cache1) =>
        buildLoop fs recurse parentPath rest (allRoutes ++ childRoutes) cache1
      | .error => .error
      | .diverge => .diverge

/-- The function `buildRouteTree(routingFile, parentPath)`; the fuel bounds the
depth of the recursion (the argument `depth` of the script only indents the
log). -/
def buildRouteTree (fs : FileSystem) :
    Nat → ModuleCache → JSString → JSString → Outcome (List JSString × ModuleCache)
  | 0, _, _, _ => .diverge
  | fuel + 1, cache, routingFile, parentPath =>
    match parseRoutingModule fs cache routingFile with
    | .ok (routes, cache1) => buildLoop fs (buildRouteTree fs fuel) parentPath routes [] cache1
    | .error => .error
    | .diverge => .diverge

/-! ## Template Scanner and Navigation-Call Scanner -/

/-- The call `route.replace(/^['"\s]+|['"\s]+$/g, "")`: the leading run and the
trailing run of quotes and white space are removed. -/
def stripQuotesAndSpace (route : JSString) : JSString :=
  dropWhileEnd isQuoteOrSpace (route.dropWhile isQuoteOrSpace)

/-- The call `route.replace(/^\/+/, "")`. -/
def stripLeadingSlashes (route : JSString) : JSString :=
  route.dropWhile (fun c => c == 47)

/-- The call `route.replace(/#\/?/, "")`: the first `#`, and a `/` right after
it, are removed. -/
def removeHash : JSString → JSString
  | [] => []
  | c :: cs =>
    if c == 35 then (if cs.head? = some 47 then cs.tail else cs)
    else c :: removeHash cs

/-- The three clean-up statements of both scanners, in the order of the
script. -/
def cleanRoute (route : JSString) : JSString :=
  removeHash (stripLeadingSlashes (stripQuotesAndSpace route))

/-- The call `set.add(x)` on a `Set`, kept in insertion order. -/
def setAdd (set : List JSString) (x : JSString) : List JSString :=
  if x ∈ set then set else set ++ [x]

/-- The class `[^\]]`. -/
def notCloseBracket : Nat → Bool := fun c => !(c == 93)

/-- The pattern `/routerLink\s*=\s*["']([^"']+)["']/g`. -/
def routerLinkPlain : Re :=
  Re.cat [Re.lit (js "routerLink"), .star true isWhiteSpace, Re.lit (js "="),
    .star true isWhiteSpace, .cls isQuote, .group 0 (Re.plus notQuote), .cls isQuote]

/-- The pattern `/\[routerLink\]\s*=\s*["']([^"']+)["']/g`. -/
def routerLinkBound : Re :=
  Re.cat [Re.lit (js "[routerLink]"), .star true isWhiteSpace, Re.lit (js "="),
    .star true isWhiteSpace, .cls isQuote, .group 0 (Re.plus notQuote), .cls isQuote]

/-- The pattern `/\[routerLink\]\s*=\s*"\[([^\]]+)\]"/g`. -/
def routerLinkArray : Re :=
  Re.cat [Re.lit (js "[routerLink]"), .star true isWhiteSpace, Re.lit (js "="),
    .star true isWhiteSpace, Re.lit (js "\"["), .group 0 (Re.plus notCloseBracket),
    Re.lit (js "]\"")]

/-- The array `patterns` of `scanHtmlFiles`. -/
def htmlPatterns : List Re := [routerLinkPlain, routerLinkBound, routerLinkArray]

/-- The pattern `/\.navigate\(\s*\[\s*["']([^"']+)["']/g`. -/
def navigateCall : Re :=
  Re.cat [Re.lit (js ".navigate("), .star true isWhiteSpace, Re.lit (js "["),
    .star true isWhiteSpace, .cls isQuote, .group 0 (Re.plus notQuote), .cls isQuote]

/-- The pattern `/\.navigateByUrl\(\s*["']([^"']+)["']/g`. -/
def navigateByUrlCall : Re :=
  Re.cat [Re.lit (js ".navigateByUrl("), .star true isWhiteSpace,
    .cls isQuote, .group 0 (Re.plus notQuote), .cls isQuote]

/-- The array `patterns` of `scanTypeScriptFiles`. -/
def tsPatterns : List Re := [navigateCall, navigateByUrlCall]

/-- The condition under which `scanHtmlFiles` adds a cleaned route. -/
def htmlKeep (route : JSString) : Bool :=
  route.length != 0 && !includes route (js "\x7b\x7b") && !includes route (js "(") &&
    decide (route.length > 0)

/-- The condition under which `scanTypeScriptFiles` adds a cleaned route. -/
def tsKeep (route : JSString) : Bool :=
  route.length != 0 && !includes route (js "$\x7b") && !includes route [96] &&
    decide (route.length > 0)

/-- The strings `match[1]` of the successive matches of one pattern. -/
def rawMatches (pattern : Re) (content : JSString) : List JSString :=
  (pattern.execAll 1 (content.length + 1) content).map (fun caps => (capture caps 0).getD [])

/-- The body of the `while` loop of a scanner: clean the captured string and
add it to the set when it is kept. -/
def addMatch (keep : JSString → Bool) (set : List JSString) (raw : JSString) : List JSString :=
  let route := cleanRoute raw
  if keep route then setAdd set route else set

/-- The statement `patterns.forEach(...)` of a scanner on the text of one
file. -/
def scanContent (pats : List Re) (keep : JSString → Bool) (content : JSString)
    (set : List JSString) : List JSString :=
  pats.foldl (fun acc pattern => (rawMatches pattern content).foldl (addMatch keep) acc) set

/-- The loop `for (const file of files)` of the nested function
`scanDirectory`, which the two scanners and `findAllRoutingModules` share
up to the branch taken for a plain file (`onFile`, given the entry name and
its joined path). -/
def scanEntries {σ : Type} (fs : FileSystem) (onFile : JSString → JSString → σ → Outcome σ)
    (recurse : JSString → σ → Outcome σ) (directory : JSString) :
    List JSString → σ → Outcome σ
  | [], st => .ok st
  | file :: rest, st =>
    let fullPath := pathJoin [directory, file]
    match fs.isDirectory fullPath with
    | none => .error
    | some true =>
      if !includes file (js "node_modules") && !includes file (js "dist") then
        match recurse fullPath st with
        | .ok st1 => scanEntries fs onFile recurse directory rest st1
        | .error => .error
        | .diverge => .diverge
      else scanEntries fs onFile recurse directory rest st
    | some false =>
      match onFile file fullPath st with
      | .ok st1 => scanEntries fs onFile recurse directory rest st1
      | .error => .error
      | .diverge => .diverge

/-- The nested function `scanDirectory(directory)`; the fuel bounds the depth
of the recursion. -/
def scanDirectory {σ : Type} (fs : FileSystem) (onFile : JSString → JSString → σ → Outcome σ) :
    Nat → JSString → σ → Outcome σ
  | 0, _, _ => .diverge
  | fuel + 1, directory, st =>
    if !fs.existsSync directory then .ok st
    else
      match fs.readdirSync directory with
      | none => .error
      | some files => scanEntries fs onFile (scanDirectory fs onFile fuel) directory files st

/-- The branch `else if (file.endsWith(".html"))` of `scanHtmlFiles`. -/
def htmlOnFile (fs : FileSystem) (file fullPath : JSString) (set : List JSString) :
    Outcome (List JSString) :=
  if endsWith file (js ".html") then
    match fs.readFileSync fullPath with
    | none => .error
    | some content => .ok (scanContent htmlPatterns htmlKeep content set)
  else .ok set

/-- The branch `else if (file.endsWith(".ts") && !file.endsWith(".spec.ts"))`
of `scanTypeScriptFiles`. -/
def tsOnFile (fs : FileSystem) (file fullPath : JSString) (set : List JSString) :
    Outcome (List JSString) :=
  if endsWith file (js ".ts") && !endsWith file (js ".spec.ts") then
    match fs.readFileSync fullPath with
    | none => .error
    | some content => .ok (scanContent tsPatterns tsKeep content set)
  else .ok set

/-- The branch of `findAllRoutingModules` for a plain file. -/
def routingOnFile (file fullPath : JSString) (routingFiles : List JSString) :
    Outcome (List JSString) :=
  if endsWith file (js "-routing.module.ts") || endsWith file (js ".routing.module.ts") then
    .ok (routingFiles ++ [fullPath])
  else .ok routingFiles

/-- The function `scanHtmlFiles(dir)`: the set `htmlRoutes` as an array. -/
def scanHtmlFiles (fs : FileSystem) (fuel : Nat) (dir : JSString) : Outcome (List JSString) :=
  scanDirectory fs (htmlOnFile fs) fuel dir []

/-- The function `scanTypeScriptFiles(dir)`: the set `tsRoutes` as an array. -/
def scanTypeScriptFiles (fs : FileSystem) (fuel : Nat) (dir : JSString) :
    Outcome (List JSString) :=
  scanDirectory fs (tsOnFile fs) fuel dir []

/-- The function `findAllRoutingModules(dir)`. -/
def findAllRoutingModules (fs : FileSystem) (fuel : Nat) (dir : JSString) :
    Outcome (List JSString) :=
  scanDirectory fs routingOnFile fuel dir []

/-! ## Reconciler and `extractAllRoutes` -/

/-- The expression `[...new Set(allRoutes)]`: the first occurrence of every
string, in order. -/
def setOf (allRoutes : List JSString) : List JSString :=
  allRoutes.foldl setAdd []

/-- The call `.sort()` on an array of strings: ascending in the order of
`<` on strings, which compares code units lexicographically.  ECMAScript
leaves the algorithm open; the sorted array is the same for all of them. -/
def sort (routes : List JSString) : List JSString :=
  routes.insertionSort (fun a b => a ≤ b)

/-- The array `uniqueRoutes`. -/
def uniqueRoutes (routingModuleRoutes htmlRoutes tsRoutes : List JSString) : List JSString :=
  sort (setOf (routingModuleRoutes ++ htmlRoutes ++ tsRoutes))

/-- The predicate of `uniqueRoutes.filter(...)`. -/
def isValidRoute (route : JSString) : Bool :=
  route.length != 0 &&
  decide ((trim route).length > 0) &&
  !includes route (js "**") &&
  !includes route (js ":") &&
  !includes route (js "undefined") &&
  !includes route (js "null") &&
  route != js "Login" &&
  route != js "Renewpassword" &&
  route != js "Forgotpassword"

/-- The array `validRoutes`, returned as `routes`. -/
def validRoutes (routingModuleRoutes htmlRoutes tsRoutes : List JSString) : List JSString :=
  (uniqueRoutes routingModuleRoutes htmlRoutes tsRoutes).filter isValidRoute

/-- The constant `hashPrefix`, from the text of the root routing file. -/
def hashPrefix (appRoutingContent : JSString) : JSString :=
  if includes appRoutingContent (js "useHash: true") then js "#/" else js "/"

/-- The object `stats`. -/
structure Stats where
  /-- The length of `routingModuleRoutes`. -/
  routingModules : Nat
  /-- The length of `htmlRoutes`. -/
  htmlFiles : Nat
  /-- The length of `tsRoutes`. -/
  tsFiles : Nat
  /-- The length of `validRoutes`. -/
  total : Nat
  deriving DecidableEq

/-- The object returned by `extractAllRoutes`. -/
structure ExtractionResult where
  /-- The array `validRoutes`. -/
  routes : List JSString
  /-- The prefix of full URLs. -/
  hashPrefix : JSString
  /-- The counts. -/
  stats : Stats
  deriving DecidableEq

/-- The constant `appRoutingFile`. -/
def appRoutingFile : JSString := js "./src/app/app-routing.module.ts"

/-- The default directory `"./src/app"` of the scanners. -/
def appDir : JSString := js "./src/app"

/-- The function `extractAllRoutes()`, run with an empty `moduleCache`; the
fuel bounds the depth of every recursion. -/
def extractAllRoutes (fs : FileSystem) (fuel : Nat) : Outcome ExtractionResult :=
  if !fs.existsSync appRoutingFile then .error
  else
    match fs.readFileSync appRoutingFile with
    | none => .error
    | some appRoutingContent =>
      (buildRouteTree fs fuel [] appRoutingFile []).bind fun (routingModuleRoutes, _) =>
      (findAllRoutingModules fs fuel appDir).bind fun _ =>
      (scanHtmlFiles fs fuel appDir).bind fun htmlRoutes =>
      (scanTypeScriptFiles fs fuel appDir).bind fun tsRoutes =>
      let routes := validRoutes routingModuleRoutes htmlRoutes tsRoutes
      .ok ⟨routes, hashPrefix appRoutingContent,
        ⟨routingModuleRoutes.length, htmlRoutes.length, tsRoutes.length, routes.length⟩⟩

/-- The array `fullUrls` of the main block: `routes.map((r) => hashPrefix + r)`. -/
def fullUrls (result : ExtractionResult) : List JSString :=
  result.routes.map (fun r => result.hashPrefix ++ r)


/-! ## Specification-side notions -/

/-- Concatenate the results of a sequence of computations, left to right; the
first abnormal outcome ends the sequence. -/
def Outcome.concat {α : Type} : List (Outcome (List α)) → Outcome (List α)
  | [] => .ok []
  | o :: os => o.bind fun xs => (Outcome.concat os).map (fun ys => xs ++ ys)

/-- Depth-first pre-order traversal as the design describes it, without cache
and without accumulator: every declaration contributes its fully-qualified
path, followed by the traversal of the file its `loadChildren` resolves to. -/
def routeTreeSpec (fs : FileSystem) : Nat → JSString → JSString → Outcome (List JSString)
  | 0, _, _ => .diverge
  | fuel + 1, file, parent =>
    match fs.readFileSync file with
    | none => .error
    | some content =>
      Outcome.concat ((parseContent content file).map fun d =>
        match childRoutingFile fs d with
        | none => .ok [fullPathOf parent d.path]
        | some child =>
          (routeTreeSpec fs fuel child (fullPathOf parent d.path)).map
            (fun rs => fullPathOf parent d.path :: rs))

/-- Every entry of the cache is what parsing the file gives. -/
def CacheOK (fs : FileSystem) (cache : ModuleCache) : Prop :=
  ∀ file routes, cacheGet cache file = some routes →
    ∃ content, fs.readFileSync file = some content ∧ routes = parseContent content file

/-- A run of the builder agrees with a cache-free result and leaves a
consistent cache. -/
def Agrees (fs : FileSystem) (o : Outcome (List JSString × ModuleCache))
    (s : Outcome (List JSString)) : Prop :=
  o.map Prod.fst = s ∧ ∀ out c, o = .ok (out, c) → CacheOK fs c


/-! ## Example source trees -/

/-- The path of the child routing file of the examples. -/
def adminRoutingFile : JSString := js "/proj/src/app/admin/admin-routing.module.ts"

/-- A root routing file that declares `dashboard` and then the lazy route
`admin`. -/
def dashboardFirstText : JSString :=
  js "[\x7bpath:'dashboard'\x7d, \x7bpath:'admin', loadChildren: import('./admin/admin.module')\x7d]"

/-- A root routing file that declares the lazy route `admin` and then
`dashboard`. -/
def adminFirstText : JSString :=
  js "[\x7bpath:'admin', loadChildren: import('./admin/admin.module')\x7d, \x7bpath:'dashboard'\x7d]"

/-- The text of the child routing file of the examples. -/
def adminRoutingText : JSString := js "[\x7bpath:'users'\x7d]"

/-- A template with a link whose target is interpolated. -/
def reportsTemplate : JSString := js "<a routerLink=\"/reports/\x7b\x7bid\x7d\x7d\">r</a>"

/-- A template with a literal link and an interpolated one. -/
def homeTemplate : JSString :=
  js "<a routerLink=\"/home\">h</a><a routerLink=\"/reports/\x7b\x7bid\x7d\x7d\">r</a>"

/-- A source tree in `/proj`: the root routing file with the given text, the
child routing file `admin/admin-routing.module.ts`, and one template. -/
def exampleFs (rootText : JSString) : FileSystem where
  cwd := js "/proj"
  existsSync p :=
    p = appRoutingFile || p = adminRoutingFile || p = appDir || p = js "src/app/admin"
  readFileSync p :=
    if p = appRoutingFile then some rootText
    else if p = adminRoutingFile then some adminRoutingText
    else if p = js "src/app/home.html" then some homeTemplate
    else none
  readdirSync p :=
    if p = appDir then some [js "admin", js "home.html"]
    else if p = js "src/app/admin" then some []
    else none
  isDirectory p :=
    if p = js "src/app/admin" then some true
    else if p = js "src/app/home.html" then some false
    else none

/-- The rank of the files of the example trees: the child routing file is
below every other file. -/
def exampleRank (file : JSString) : Nat := if file = adminRoutingFile then 0 else 1

/-- A syntactic check that every match of the pattern consumes at least one
code unit. -/
def Re.nonEmpty : Re → Bool
  | .cls _ => true
  | .eps => false
  | .seq a b => a.nonEmpty || b.nonEmpty
  | .star _ _ => false
  | .opt _ => false
  | .group _ a => a.nonEmpty

/-! ## Specification-side notions for the matcher and the scanners -/

/-- What a pattern matches, without the search order: `Re.Sem r w caps caps1`
says that `r` can match exactly the text `w`, turning the captures `caps` into
`caps1`. -/
def Re.Sem : Re → JSString → Caps → Caps → Prop
  | .cls p, w, caps, caps1 => ∃ a, w = [a] ∧ p a = true ∧ caps1 = caps
  | .eps, w, caps, caps1 => w = [] ∧ caps1 = caps
  | .seq a b, w, caps, caps1 =>
    ∃ w1 w2 mid, w = w1 ++ w2 ∧ Re.Sem a w1 caps mid ∧ Re.Sem b w2 mid caps1
  | .star _ p, w, caps, caps1 => (∀ a ∈ w, p a = true) ∧ caps1 = caps
  | .opt a, w, caps, caps1 => Re.Sem a w caps caps1 ∨ (w = [] ∧ caps1 = caps)
  | .group i a, w, caps, caps1 => ∃ mid, Re.Sem a w caps mid ∧ caps1 = mid.set i (some w)

/-- The string `raw` stands in `content` as the first element of the array
argument of a `.navigate(` call: between quotes, right after the opening
bracket (white space apart), and without a quote inside. -/
def IsFirstArrayElement (content raw : JSString) : Prop :=
  ∃ before ws1 ws2 q1 q2 after,
    content = before ++ (js ".navigate(" ++ (ws1 ++ (js "[" ++ (ws2 ++ (q1 :: (raw ++ q2 :: after)))))) ∧
    (∀ c ∈ ws1, isWhiteSpace c = true) ∧ (∀ c ∈ ws2, isWhiteSpace c = true) ∧
    isQuote q1 = true ∧ isQuote q2 = true ∧ raw ≠ [] ∧ ∀ c ∈ raw, isQuote c = false

/-- The string `raw` stands in `content` as the argument of a
`.navigateByUrl(` call: between quotes, right after the opening parenthesis
(white space apart), and without a quote inside. -/
def IsUrlArgument (content raw : JSString) : Prop :=
  ∃ before ws1 q1 q2 after,
    content = before ++ (js ".navigateByUrl(" ++ (ws1 ++ (q1 :: (raw ++ q2 :: after)))) ∧
    (∀ c ∈ ws1, isWhiteSpace c = true) ∧
    isQuote q1 = true ∧ isQuote q2 = true ∧ raw ≠ [] ∧ ∀ c ∈ raw, isQuote c = false

/-- A source file whose only navigation call passes a two-element array. -/
def settingsSource : JSString :=
  js "goToProfile() \x7b this.router.navigate(['settings', 'profile']); \x7d"

/-- A source tree whose directory `./src/app` holds the one source file
`nav.component.ts`. -/
def navigationFs : FileSystem where
  cwd := js "/proj"
  existsSync p := p = appDir
  readFileSync p := if p = js "src/app/nav.component.ts" then some settingsSource else none
  readdirSync p := if p = appDir then some [js "nav.component.ts"] else none
  isDirectory p := if p = js "src/app/nav.component.ts" then some false else none

/-- A source tree in which a plain module file `admin/admin.ts` and a
directory `shared` exist, and no file with a routing-module name. -/
def moduleOnlyFs : FileSystem where
  cwd := js "/proj"
  existsSync p := p = js "/proj/src/app/admin/admin.ts" || p = js "/proj/src/app/shared"
  readFileSync _ := none
  readdirSync _ := none
  isDirectory _ := none

/-- The root routing file of `selfLoopFs`, as `findRoutingModule` names it. -/
def resolvedAppRoutingFile : JSString := js "/proj/src/app/app-routing.module.ts"

/-- A root routing file whose lazy route refers to the root module itself. -/
def selfLoopText : JSString :=
  js "[\x7bpath:'a', loadChildren: () => import('./app.module')\x7d]"

/-- A source tree whose root routing file resolves back to itself. -/
def selfLoopFs : FileSystem where
  cwd := js "/proj"
  existsSync p := p = appRoutingFile || p = resolvedAppRoutingFile
  readFileSync p :=
    if p = appRoutingFile then some selfLoopText
    else if p = resolvedAppRoutingFile then some selfLoopText
    else none
  readdirSync _ := none
  isDirectory _ := none

/-! ## Lemmas on strings -/

theorem includes_iff (s sub : JSString) : includes s sub = true ↔ sub <:+: s := by
  induction s with
  | nil =>
    simp only [includes, List.isPrefixOf_iff_prefix]
    constructor
    · intro h; exact h.isInfix
    · intro h
      have := List.eq_nil_of_infix_nil h
      subst this
      exact List.nil_prefix
  | cons c cs ih =>
    simp only [includes, Bool.or_eq_true, List.isPrefixOf_iff_prefix, ih, List.infix_cons_iff]

/-! ## Lemmas on the tree builder -/

theorem fullPathOf_eq (q p : JSString) :
    fullPathOf q p = if q = [] then p else q ++ js "/" ++ p := by
  unfold fullPathOf
  cases q <;> simp

theorem buildLoop_blocks (fs : FileSystem)
    (recurse : ModuleCache → JSString → JSString → Outcome (List JSString × ModuleCache))
    (q : JSString) :
    ∀ (routes : List RouteDeclaration) (acc : List JSString) (cache : ModuleCache)
      (out : List JSString) (cache1 : ModuleCache),
      buildLoop fs recurse q routes acc cache = .ok (out, cache1) →
      ∃ blocks : List (List JSString), out = acc ++ blocks.flatten ∧
        List.Forall₂ (fun route block => ∃ children, block = fullPathOf q route.path :: children)
          routes blocks := by
  intro routes
  induction routes with
  | nil =>
    intro acc cache out cache1 h
    simp only [buildLoop, Outcome.ok.injEq, Prod.mk.injEq] at h
    exact ⟨[], by simp [h.1], List.Forall₂.nil⟩
  | cons route rest ih =>
    intro acc cache out cache1 h
    rw [buildLoop] at h
    cases hc : childRoutingFile fs route with
    | none =>
      simp only [hc] at h
      obtain ⟨blocks, hout, hall⟩ := ih _ _ _ _ h
      exact ⟨[fullPathOf q route.path] :: blocks, by simp [hout], List.Forall₂.cons ⟨[], rfl⟩ hall⟩
    | some child =>
      simp only [hc] at h
      cases hr : recurse cache child (fullPathOf q route.path) with
      | ok res =>
        obtain ⟨childRoutes, c2⟩ := res
        simp only [hr] at h
        obtain ⟨blocks, hout, hall⟩ := ih _ _ _ _ h
        exact ⟨(fullPathOf q route.path :: childRoutes) :: blocks, by simp [hout],
          List.Forall₂.cons ⟨childRoutes, rfl⟩ hall⟩
      | error => simp [hr] at h
      | diverge => simp [hr] at h

/-! ## Lemmas on the cache -/

theorem cacheGet_cacheSet (cache : ModuleCache) (file : JSString) (routes : List RouteDeclaration)
    (g : JSString) :
    cacheGet (cacheSet cache file routes) g = if file = g then some routes else cacheGet cache g := by
  induction cache with
  | nil => simp [cacheSet, cacheGet]
  | cons kv rest ih =>
    obtain ⟨k, v⟩ := kv
    by_cases hk : k = file
    · subst hk
      by_cases hg : k = g <;> simp [cacheSet, cacheGet, hg]
    · by_cases hg : k = g
      · subst hg
        have : ¬ file = k := fun h => hk h.symm
        simp [cacheSet, cacheGet, hk, this]
      · simp [cacheSet, cacheGet, hk, hg, ih]

theorem cacheOK_nil (fs : FileSystem) : CacheOK fs [] := by
  intro file routes h
  simp [cacheGet] at h

theorem cacheOK_set (fs : FileSystem) (cache : ModuleCache) (file content : JSString)
    (hc : CacheOK fs cache) (hr : fs.readFileSync file = some content) :
    CacheOK fs (cacheSet cache file (parseContent content file)) := by
  intro g routes h
  rw [cacheGet_cacheSet] at h
  by_cases hg : file = g
  · subst hg
    simp only [if_true, Option.some.injEq] at h
    exact ⟨content, hr, h.symm⟩
  · simp only [hg, if_false] at h
    exact hc g routes h

theorem parseRoutingModule_of_read (fs : FileSystem) (cache : ModuleCache) (file content : JSString)
    (hc : CacheOK fs cache) (hr : fs.readFileSync file = some content) :
    ∃ c1, parseRoutingModule fs cache file = .ok (parseContent content file, c1) ∧ CacheOK fs c1 := by
  unfold parseRoutingModule
  cases hg : cacheGet cache file with
  | none => simp only [hr]; exact ⟨_, rfl, cacheOK_set fs cache file content hc hr⟩
  | some routes =>
    obtain ⟨content1, hr1, hroutes⟩ := hc file routes hg
    rw [hr] at hr1
    cases hr1
    exact ⟨cache, by simp [hroutes], hc⟩

theorem parseRoutingModule_of_unreadable (fs : FileSystem) (cache : ModuleCache) (file : JSString)
    (hc : CacheOK fs cache) (hr : fs.readFileSync file = none) :
    parseRoutingModule fs cache file = .error := by
  unfold parseRoutingModule
  cases hg : cacheGet cache file with
  | none => simp [hr]
  | some routes =>
    obtain ⟨content1, hr1, _⟩ := hc file routes hg
    rw [hr] at hr1
    cases hr1

/-! ## The builder against the cache-free traversal -/

theorem buildLoop_agrees (fs : FileSystem)
    (recurse : ModuleCache → JSString → JSString → Outcome (List JSString × ModuleCache))
    (spec : JSString → JSString → Outcome (List JSString))
    (hrec : ∀ cache child q, CacheOK fs cache → Agrees fs (recurse cache child q) (spec child q))
    (q : JSString) :
    ∀ (routes : List RouteDeclaration) (acc : List JSString) (cache : ModuleCache),
      CacheOK fs cache →
      Agrees fs (buildLoop fs recurse q routes acc cache)
        ((Outcome.concat (routes.map fun d =>
          match childRoutingFile fs d with
          | none => .ok [fullPathOf q d.path]
          | some child => (spec child (fullPathOf q d.path)).map
              (fun rs => fullPathOf q d.path :: rs))).map (fun ys => acc ++ ys)) := by
  intro routes
  induction routes with
  | nil =>
    intro acc cache hc
    refine ⟨by simp [buildLoop, Outcome.concat, Outcome.map], ?_⟩
    intro out c h
    simp only [buildLoop, Outcome.ok.injEq, Prod.mk.injEq] at h
    rw [← h.2]; exact hc
  | cons route rest ih =>
    intro acc cache hc
    rw [buildLoop]
    cases hch : childRoutingFile fs route with
    | none =>
      have := ih (acc ++ [fullPathOf q route.path]) cache hc
      refine ⟨?_, this.2⟩
      rw [this.1]
      simp only [List.map_cons, hch, Outcome.concat, Outcome.bind]
      cases Outcome.concat (rest.map _) <;> simp [Outcome.map]
    | some child =>
      have hr := hrec cache child (fullPathOf q route.path) hc
      dsimp only
      cases hres : recurse cache child (fullPathOf q route.path) with
      | ok res =>
        obtain ⟨childRoutes, c2⟩ := res
        have hc2 : CacheOK fs c2 := hr.2 _ _ hres
        have hs : spec child (fullPathOf q route.path) = .ok childRoutes := by
          rw [← hr.1, hres]; rfl
        have := ih (acc ++ [fullPathOf q route.path] ++ childRoutes) c2 hc2
        refine ⟨?_, this.2⟩
        rw [this.1]
        simp only [List.map_cons, hch, hs, Outcome.concat, Outcome.bind, Outcome.map]
        cases Outcome.concat (rest.map _) <;> simp [Outcome.map]
      | error =>
        have hs : spec child (fullPathOf q route.path) = .error := by
          rw [← hr.1, hres]; rfl
        refine ⟨?_, by intro out c h; cases h⟩
        simp [hch, hs, Outcome.concat, Outcome.bind, Outcome.map]
      | diverge =>
        have hs : spec child (fullPathOf q route.path) = .diverge := by
          rw [← hr.1, hres]; rfl
        refine ⟨?_, by intro out c h; cases h⟩
        simp [hch, hs, Outcome.concat, Outcome.bind, Outcome.map]

theorem buildRouteTree_agrees (fs : FileSystem) :
    ∀ (fuel : Nat) (cache : ModuleCache) (file q : JSString), CacheOK fs cache →
      Agrees fs (buildRouteTree fs fuel cache file q) (routeTreeSpec fs fuel file q) := by
  intro fuel
  induction fuel with
  | zero =>
    intro cache file q _
    exact ⟨rfl, by intro out c h; cases h⟩
  | succ fuel ih =>
    intro cache file q hc
    rw [buildRouteTree, routeTreeSpec]
    cases hr : fs.readFileSync file with
    | none =>
      rw [parseRoutingModule_of_unreadable fs cache file hc hr]
      exact ⟨rfl, by intro out c h; cases h⟩
    | some content =>
      obtain ⟨c1, hp, hc1⟩ := parseRoutingModule_of_read fs cache file content hc hr
      rw [hp]
      have := buildLoop_agrees fs (buildRouteTree fs fuel) (routeTreeSpec fs fuel)
        (fun cache child q h => ih cache child q h) q (parseContent content file) [] c1 hc1
      refine ⟨?_, this.2⟩
      rw [this.1]
      simp only []
      cases Outcome.concat ((parseContent content file).map _) <;> simp [Outcome.map]

theorem concat_ne_diverge {α : Type} (os : List (Outcome (List α)))
    (h : ∀ o ∈ os, o ≠ Outcome.diverge) : Outcome.concat os ≠ .diverge := by
  induction os with
  | nil => simp [Outcome.concat]
  | cons o os ih =>
    have ho := h o (List.mem_cons_self _ _)
    have ht := ih (fun o1 h1 => h o1 (List.mem_cons_of_mem _ h1))
    cases o with
    | ok xs =>
      simp only [Outcome.concat, Outcome.bind]
      cases hcs : Outcome.concat os with
      | ok ys => simp [Outcome.map]
      | error => simp [Outcome.map]
      | diverge => exact absurd hcs ht
    | error => simp [Outcome.concat, Outcome.bind]
    | diverge => exact absurd rfl ho

theorem routeTreeSpec_terminates (fs : FileSystem) (rank : JSString → Nat)
    (hacyclic : ∀ file content d child, fs.readFileSync file = some content →
      d ∈ parseContent content file → childRoutingFile fs d = some child →
      rank child < rank file) :
    ∀ (fuel : Nat) (file q : JSString), rank file < fuel →
      routeTreeSpec fs fuel file q ≠ .diverge := by
  intro fuel
  induction fuel with
  | zero => intro file q h; omega
  | succ fuel ih =>
    intro file q h
    rw [routeTreeSpec]
    cases hr : fs.readFileSync file with
    | none => simp
    | some content =>
      apply concat_ne_diverge
      intro o ho
      simp only [List.mem_map] at ho
      obtain ⟨d, hd, rfl⟩ := ho
      cases hch : childRoutingFile fs d with
      | none => simp
      | some child =>
        have hlt := hacyclic file content d child hr hd hch
        have := ih child (fullPathOf q d.path) (by omega)
        simp only []
        cases hs : routeTreeSpec fs fuel child (fullPathOf q d.path) with
        | ok rs => simp [Outcome.map]
        | error => simp [Outcome.map]
        | diverge => exact absurd hs this

/-! ## Lemmas on the resolver -/

theorem firstExisting_eq_none (fs : FileSystem) (l : List JSString) :
    firstExisting fs l = none ↔ ∀ p ∈ l, fs.existsSync p = false := by
  induction l with
  | nil => simp [firstExisting]
  | cons a l ih =>
    rw [firstExisting]
    by_cases h : fs.existsSync a = true
    · simp [h]
    · simp [h, ih]

theorem firstExisting_eq_some (fs : FileSystem) (l : List JSString) (p : JSString) :
    firstExisting fs l = some p ↔
      ∃ i : Nat, l[i]? = some p ∧ fs.existsSync p = true ∧
        ∀ j : Nat, j < i → ∀ q, l[j]? = some q → fs.existsSync q = false := by
  induction l with
  | nil => simp [firstExisting]
  | cons a l ih =>
    rw [firstExisting]
    by_cases h : fs.existsSync a = true
    · simp only [h, if_true, Option.some.injEq]
      constructor
      · rintro rfl
        exact ⟨0, by simp, h, by intro j hj; omega⟩
      · rintro ⟨i, hi, _, hlt⟩
        cases i with
        | zero => simpa using hi
        | succ i =>
          have := hlt 0 (by omega) a (by simp)
          rw [h] at this
          cases this
    · simp only [h, Bool.false_eq_true, if_false, ih]
      constructor
      · rintro ⟨i, hi, hp, hlt⟩
        refine ⟨i + 1, by simpa using hi, hp, ?_⟩
        intro j hj q hq
        cases j with
        | zero =>
          simp only [List.getElem?_cons_zero, Option.some.injEq] at hq
          subst hq
          simpa using h
        | succ j => exact hlt j (by omega) q (by simpa using hq)
      · rintro ⟨i, hi, hp, hlt⟩
        cases i with
        | zero =>
          simp only [List.getElem?_cons_zero, Option.some.injEq] at hi
          subst hi
          exact absurd hp h
        | succ i =>
          refine ⟨i, by simpa using hi, hp, ?_⟩
          intro j hj q hq
          exact hlt (j + 1) (by omega) q (by simpa using hq)

theorem exampleFs_acyclic :
    ∀ file content d child, (exampleFs adminFirstText).readFileSync file = some content →
      d ∈ parseContent content file → childRoutingFile (exampleFs adminFirstText) d = some child →
      exampleRank child < exampleRank file := by
  intro file content d child hread hd hchild
  simp only [exampleFs] at hread
  split at hread
  · next h =>
    subst h
    cases hread
    have hp : parseContent adminFirstText appRoutingFile =
        [⟨js "admin", some (js "./admin/admin.module"), appRoutingFile⟩,
         ⟨js "dashboard", none, appRoutingFile⟩] := by decide
    rw [hp] at hd
    simp only [List.mem_cons, List.mem_singleton, List.not_mem_nil, or_false] at hd
    rcases hd with rfl | rfl
    · have : childRoutingFile (exampleFs adminFirstText)
          ⟨js "admin", some (js "./admin/admin.module"), appRoutingFile⟩ = some adminRoutingFile := by
        decide
      rw [this] at hchild
      cases hchild
      decide
    · simp [childRoutingFile] at hchild
  · split at hread
    · next h1 h =>
      subst h
      cases hread
      have hp : parseContent adminRoutingText adminRoutingFile =
          [⟨js "users", none, adminRoutingFile⟩] := by decide
      rw [hp] at hd
      simp only [List.mem_singleton] at hd
      subst hd
      simp [childRoutingFile] at hchild
    · split at hread
      · next h1 h2 h =>
        subst h
        cases hread
        have hp : parseContent homeTemplate (js "src/app/home.html") = [] := by decide
        rw [hp] at hd
        simp at hd
      · cases hread

/-! ## Lemmas on the reconciler -/

theorem mem_foldl_setAdd (l : List JSString) :
    ∀ (acc : List JSString) (x : JSString), x ∈ l.foldl setAdd acc ↔ x ∈ acc ∨ x ∈ l := by
  induction l with
  | nil => intro acc x; simp
  | cons a l ih =>
    intro acc x
    rw [List.foldl_cons, ih, setAdd]
    by_cases h : a ∈ acc
    · simp only [h, if_true, List.mem_cons]
      constructor
      · rintro (h1 | h1)
        · exact Or.inl h1
        · exact Or.inr (Or.inr h1)
      · rintro (h1 | rfl | h1)
        · exact Or.inl h1
        · exact Or.inl h
        · exact Or.inr h1
    · simp only [h, if_false, List.mem_append, List.mem_singleton, List.mem_cons]
      tauto

theorem nodup_foldl_setAdd (l : List JSString) :
    ∀ acc : List JSString, acc.Nodup → (l.foldl setAdd acc).Nodup := by
  induction l with
  | nil => intro acc h; simpa using h
  | cons a l ih =>
    intro acc h
    rw [List.foldl_cons]
    apply ih
    rw [setAdd]
    by_cases ha : a ∈ acc
    · simpa [ha] using h
    · simp only [ha, if_false]
      rw [List.nodup_append]
      refine ⟨h, List.nodup_singleton a, ?_⟩
      intro x hx hx1
      simp only [List.mem_singleton] at hx1
      subst hx1
      exact ha hx

theorem mem_setOf (l : List JSString) (x : JSString) : x ∈ setOf l ↔ x ∈ l := by
  simp [setOf, mem_foldl_setAdd]

theorem nodup_setOf (l : List JSString) : (setOf l).Nodup :=
  nodup_foldl_setAdd l [] List.nodup_nil

theorem mem_sort (l : List JSString) (x : JSString) : x ∈ sort l ↔ x ∈ l :=
  (List.perm_insertionSort _ l).mem_iff

theorem nodup_sort (l : List JSString) (h : l.Nodup) : (sort l).Nodup :=
  (List.perm_insertionSort _ l).nodup_iff.2 h

theorem sorted_sort (l : List JSString) : List.Sorted (fun a b => a ≤ b) (sort l) :=
  List.sorted_insertionSort _ l

theorem sorted_lt_uniqueRoutes (a b c : List JSString) :
    List.Sorted (fun x y => x < y) (uniqueRoutes a b c) :=
  (sorted_sort _).lt_of_le (nodup_sort _ (nodup_setOf _))

theorem trim_ne_nil_of_valid (s : JSString) (h : decide ((trim s).length > 0) = true) :
    trim s ≠ [] := by
  intro h1
  rw [h1] at h
  simp at h

theorem isValidRoute_iff (s : JSString) :
    isValidRoute s = true ↔
      trim s ≠ [] ∧ ¬ js "**" <:+: s ∧ ¬ js ":" <:+: s ∧ ¬ js "undefined" <:+: s ∧
      ¬ js "null" <:+: s ∧ s ≠ js "Login" ∧ s ≠ js "Renewpassword" ∧ s ≠ js "Forgotpassword" := by
  have hne : trim s ≠ [] → s ≠ [] := by
    intro h hs
    subst hs
    exact h rfl
  simp only [isValidRoute, Bool.and_eq_true, Bool.not_eq_true', bne_iff_ne, ne_eq,
    decide_eq_true_eq, ← includes_iff, Bool.not_eq_true, List.length_pos]
  constructor
  · rintro ⟨⟨⟨⟨⟨⟨⟨⟨_, h1⟩, h2⟩, h3⟩, h4⟩, h5⟩, h6⟩, h7⟩, h8⟩
    exact ⟨h1, h2, h3, h4, h5, h6, h7, h8⟩
  · rintro ⟨h1, h2, h3, h4, h5, h6, h7, h8⟩
    refine ⟨⟨⟨⟨⟨⟨⟨⟨?_, h1⟩, h2⟩, h3⟩, h4⟩, h5⟩, h6⟩, h7⟩, h8⟩
    have := hne h1
    simpa using this

/-! ## Lemmas on the clean-up of the scanners -/

theorem head?_dropWhile_false (p : Nat → Bool) (l : JSString) (c : Nat)
    (h : (l.dropWhile p).head? = some c) : p c = false := by
  induction l with
  | nil => simp at h
  | cons a l ih =>
    rw [List.dropWhile_cons] at h
    by_cases ha : p a = true
    · rw [if_pos ha] at h
      exact ih h
    · rw [if_neg ha] at h
      simp only [List.head?_cons, Option.some.injEq] at h
      subst h
      simpa using ha

theorem getLast?_dropWhileEnd_false (p : Nat → Bool) (l : JSString) (c : Nat)
    (h : (dropWhileEnd p l).getLast? = some c) : p c = false := by
  unfold dropWhileEnd at h
  rw [List.getLast?_reverse] at h
  exact head?_dropWhile_false p _ c h

theorem dropWhileEnd_initial (p : Nat → Bool) (l : JSString) : dropWhileEnd p l <+: l := by
  unfold dropWhileEnd
  have := List.dropWhile_suffix p (l := l.reverse)
  rw [← List.reverse_prefix] at this
  simpa using this

theorem head?_of_initial {x y : JSString} (h : x <+: y) (c : Nat) (hx : x.head? = some c) :
    y.head? = some c := by
  obtain ⟨t, rfl⟩ := h
  cases x with
  | nil => simp at hx
  | cons a x => simpa using hx

theorem getLast?_of_final {x y : JSString} (h : x <:+ y) (c : Nat) (hx : x.getLast? = some c) :
    y.getLast? = some c := by
  obtain ⟨t, rfl⟩ := h
  cases x with
  | nil => simp at hx
  | cons a x =>
    rw [List.getLast?_append_of_ne_nil _ (by simp)]
    exact hx

theorem count_dropWhile_of_false (p : Nat → Bool) (a : Nat) (hp : p a = false) (l : JSString) :
    (l.dropWhile p).count a = l.count a := by
  induction l with
  | nil => rfl
  | cons b l ih =>
    rw [List.dropWhile_cons]
    by_cases hb : p b = true
    · rw [if_pos hb, ih]
      have : b ≠ a := by
        intro hba
        subst hba
        rw [hp] at hb
        cases hb
      simp [List.count_cons, this]
    · rw [if_neg hb]

theorem count_dropWhileEnd_of_false (p : Nat → Bool) (a : Nat) (hp : p a = false) (l : JSString) :
    (dropWhileEnd p l).count a = l.count a := by
  unfold dropWhileEnd
  rw [List.count_reverse, count_dropWhile_of_false p a hp, List.count_reverse]

theorem count_removeHash (s : JSString) : (removeHash s).count 35 = s.count 35 - 1 := by
  induction s with
  | nil => rfl
  | cons c cs ih =>
    rw [removeHash]
    by_cases hc : c = 35
    · subst hc
      simp only [beq_self_eq_true, if_true, List.count_cons_self, Nat.add_sub_cancel]
      cases cs with
      | nil => simp
      | cons d ds =>
        by_cases hd : d = 47
        · subst hd
          simp [List.count_cons]
        · simp [hd]
    · have hc1 : (c == 35) = false := by simpa using hc
      simp only [hc1, Bool.false_eq_true, if_false]
      rw [List.count_cons_of_ne (Ne.symm hc), List.count_cons_of_ne (Ne.symm hc), ih]

theorem removeHash_of_not_mem (s : JSString) (h : 35 ∉ s) : removeHash s = s := by
  induction s with
  | nil => rfl
  | cons c cs ih =>
    simp only [List.mem_cons, not_or] at h
    have hc1 : (c == 35) = false := by
      simpa using fun hc : c = 35 => h.1 hc.symm
    rw [removeHash]
    simp only [hc1, Bool.false_eq_true, if_false, ih h.2]

theorem count_hash_strip (raw : JSString) :
    (stripLeadingSlashes (stripQuotesAndSpace raw)).count 35 = raw.count 35 := by
  unfold stripLeadingSlashes stripQuotesAndSpace
  rw [count_dropWhile_of_false _ 35 (by decide), count_dropWhileEnd_of_false _ 35 (by decide),
    count_dropWhile_of_false _ 35 (by decide)]

/-- A string is not empty after `trim()` exactly when it holds a code unit
that is not white space. -/
theorem trim_ne_nil_iff (s : JSString) :
    trim s ≠ [] ↔ ∃ c ∈ s, isWhiteSpace c = false := by
  have h1 : trim s = [] ↔ s.dropWhile isWhiteSpace = [] := by
    unfold trim dropWhileEnd
    rw [List.reverse_eq_nil_iff, List.dropWhile_eq_nil_iff]
    constructor
    · intro h
      cases hd : s.dropWhile isWhiteSpace with
      | nil => rfl
      | cons a t =>
        have ha : isWhiteSpace a = false :=
          head?_dropWhile_false isWhiteSpace s a (by rw [hd]; rfl)
        have := h a (by rw [hd]; simp)
        rw [ha] at this
        cases this
    · intro h x hx
      rw [h] at hx
      simp at hx
  rw [Ne, h1, List.dropWhile_eq_nil_iff]
  constructor
  · intro h
    by_contra hc
    apply h
    intro x hx
    by_cases hw : isWhiteSpace x = true
    · exact hw
    · exact absurd ⟨x, hx, by simpa using hw⟩ hc
  · rintro ⟨c, hc, hw⟩ h
    have := h c hc
    rw [hw] at this
    cases this

/-! ## Lemmas on the directory traversal -/

theorem foldl_addMatch_inv (keep : JSString → Bool) (raws : List JSString) :
    ∀ set : List JSString, (∀ r ∈ set, keep r = true) →
      ∀ r ∈ raws.foldl (addMatch keep) set, keep r = true := by
  induction raws with
  | nil => intro set h; simpa using h
  | cons raw raws ih =>
    intro set h
    rw [List.foldl_cons]
    apply ih
    intro r hr
    unfold addMatch at hr
    by_cases hk : keep (cleanRoute raw) = true
    · simp only [hk, if_true, setAdd] at hr
      by_cases hm : cleanRoute raw ∈ set
      · rw [if_pos hm] at hr
        exact h r hr
      · rw [if_neg hm] at hr
        simp only [List.mem_append, List.mem_singleton] at hr
        rcases hr with hr | rfl
        · exact h r hr
        · exact hk
    · simp only [hk, if_false] at hr
      exact h r hr

theorem scanContent_inv (pats : List Re) (keep : JSString → Bool) (content : JSString) :
    ∀ set : List JSString, (∀ r ∈ set, keep r = true) →
      ∀ r ∈ scanContent pats keep content set, keep r = true := by
  unfold scanContent
  induction pats with
  | nil => intro set h; simpa using h
  | cons pattern pats ih =>
    intro set h
    rw [List.foldl_cons]
    exact ih _ (foldl_addMatch_inv keep _ set h)

theorem scanEntries_inv {σ : Type} (fs : FileSystem) (onFile : JSString → JSString → σ → Outcome σ)
    (recurse : JSString → σ → Outcome σ) (P : σ → Prop)
    (hfile : ∀ file fullPath st st1, P st → onFile file fullPath st = .ok st1 → P st1)
    (hrec : ∀ dir st st1, P st → recurse dir st = .ok st1 → P st1) (directory : JSString) :
    ∀ (files : List JSString) (st st1 : σ), P st →
      scanEntries fs onFile recurse directory files st = .ok st1 → P st1 := by
  intro files
  induction files with
  | nil =>
    intro st st1 hP h
    simp only [scanEntries, Outcome.ok.injEq] at h
    exact h ▸ hP
  | cons file rest ih =>
    intro st st1 hP h
    rw [scanEntries] at h
    cases hd : fs.isDirectory (pathJoin [directory, file]) with
    | none => simp [hd] at h
    | some b =>
      cases b with
      | true =>
        simp only [hd] at h
        split at h
        · cases hr : recurse (pathJoin [directory, file]) st with
          | ok st2 =>
            simp only [hr] at h
            exact ih st2 st1 (hrec _ _ _ hP hr) h
          | error => simp [hr] at h
          | diverge => simp [hr] at h
        · exact ih st st1 hP h
      | false =>
        simp only [hd] at h
        cases hr : onFile file (pathJoin [directory, file]) st with
        | ok st2 =>
          simp only [hr] at h
          exact ih st2 st1 (hfile _ _ _ _ hP hr) h
        | error => simp [hr] at h
        | diverge => simp [hr] at h

theorem scanDirectory_inv {σ : Type} (fs : FileSystem)
    (onFile : JSString → JSString → σ → Outcome σ) (P : σ → Prop)
    (hfile : ∀ file fullPath st st1, P st → onFile file fullPath st = .ok st1 → P st1) :
    ∀ (fuel : Nat) (directory : JSString) (st st1 : σ), P st →
      scanDirectory fs onFile fuel directory st = .ok st1 → P st1 := by
  intro fuel
  induction fuel with
  | zero => intro directory st st1 _ h; simp [scanDirectory] at h
  | succ fuel ih =>
    intro directory st st1 hP h
    rw [scanDirectory] at h
    split at h
    · simp only [Outcome.ok.injEq] at h
      exact h ▸ hP
    · cases hr : fs.readdirSync directory with
      | none => simp [hr] at h
      | some files =>
        simp only [hr] at h
        exact scanEntries_inv fs onFile _ P hfile (fun dir st st1 hP h => ih dir st st1 hP h)
          directory files st st1 hP h

theorem htmlOnFile_inv (fs : FileSystem) (file fullPath : JSString) (set set1 : List JSString)
    (hP : ∀ r ∈ set, htmlKeep r = true) (h : htmlOnFile fs file fullPath set = .ok set1) :
    ∀ r ∈ set1, htmlKeep r = true := by
  unfold htmlOnFile at h
  split at h
  · cases hr : fs.readFileSync fullPath with
    | none => simp [hr] at h
    | some content =>
      simp only [hr, Outcome.ok.injEq] at h
      subst h
      exact scanContent_inv _ _ _ set hP
  · simp only [Outcome.ok.injEq] at h
    exact h ▸ hP

theorem htmlKeep_iff (r : JSString) :
    htmlKeep r = true ↔ r ≠ [] ∧ ¬ js "\x7b\x7b" <:+: r ∧ ¬ js "(" <:+: r := by
  simp only [htmlKeep, Bool.and_eq_true, Bool.not_eq_true', bne_iff_ne, ne_eq,
    decide_eq_true_eq, ← includes_iff, Bool.not_eq_true, List.length_pos, List.length_eq_zero]
  tauto

/-! ## Supporting facts on the model -/

/-- The order `<` on strings is the lexicographic order of their code
units. -/
theorem lt_iff_lex (x y : JSString) : x < y ↔ List.Lex (fun a b : Nat => a < b) x y :=
  Iff.rfl

/-- The list `routes` of a result of `extractAllRoutes` is `validRoutes` of the
three collections of the run. -/
theorem extractAllRoutes_routes (fs : FileSystem) (fuel : Nat) (result : ExtractionResult)
    (h : extractAllRoutes fs fuel = .ok result) :
    ∃ routingModuleRoutes htmlRoutes tsRoutes,
      (buildRouteTree fs fuel [] appRoutingFile []).map Prod.fst = .ok routingModuleRoutes ∧
      scanHtmlFiles fs fuel appDir = .ok htmlRoutes ∧
      scanTypeScriptFiles fs fuel appDir = .ok tsRoutes ∧
      result.routes = validRoutes routingModuleRoutes htmlRoutes tsRoutes := by
  unfold extractAllRoutes at h
  split at h
  · cases h
  · cases hr : fs.readFileSync appRoutingFile with
    | none => simp [hr] at h
    | some content =>
      simp only [hr] at h
      cases hb : buildRouteTree fs fuel [] appRoutingFile [] with
      | ok res =>
        obtain ⟨rm, c⟩ := res
        simp only [hb, Outcome.bind] at h
        cases hf : findAllRoutingModules fs fuel appDir with
        | ok files =>
          simp only [hf] at h
          cases hh : scanHtmlFiles fs fuel appDir with
          | ok html =>
            simp only [hh] at h
            cases ht : scanTypeScriptFiles fs fuel appDir with
            | ok ts =>
              simp only [ht, Outcome.ok.injEq] at h
              subst h
              exact ⟨rm, html, ts, rfl, rfl, rfl, rfl⟩
            | error => simp [ht] at h
            | diverge => simp [ht] at h
          | error => simp [hh] at h
          | diverge => simp [hh] at h
        | error => simp [hf] at h
        | diverge => simp [hf] at h
      | error => simp [hb, Outcome.bind] at h
      | diverge => simp [hb, Outcome.bind] at h

theorem pathResolve_ne_nil (cwd : JSString) (args : List JSString) : pathResolve cwd args ≠ [] := by
  unfold pathResolve
  split
  · simp [js, codeUnits]
  · simp only []
    split
    · simp [js, codeUnits]
    · assumption

theorem pathNormalize_ne_nil (p : JSString) : pathNormalize p ≠ [] := by
  unfold pathNormalize
  split
  · simp [js, codeUnits]
  · simp only []
    split
    · split
      · simp [js, codeUnits]
      · split <;> simp [js, codeUnits]
    · next hq =>
      split
      · simp [js, codeUnits]
      · split
        · simp [js, codeUnits]
        · exact hq

theorem patterns_ne_nil (base : JSString) (hb : base ≠ []) : ∀ p ∈ patterns base, p ≠ [] := by
  intro p hp
  simp only [patterns, List.mem_cons, List.mem_singleton, List.not_mem_nil, or_false] at hp
  rcases hp with rfl | rfl | rfl | rfl | rfl
  · simp [hb]
  · simp [hb]
  · unfold pathJoin
    split
    · simp [js, codeUnits]
    · exact pathNormalize_ne_nil _
  · simp [js, codeUnits]
  · unfold replaceTsSuffix
    split
    · simp [js, codeUnits]
    · exact hb

theorem searchPath_ne_nil (fs : FileSystem) (modulePath fromFile : JSString) :
    searchPath fs modulePath fromFile ≠ [] := by
  unfold searchPath
  split
  · exact pathResolve_ne_nil _ _
  · split <;> exact pathResolve_ne_nil _ _

theorem firstExisting_mem (fs : FileSystem) (l : List JSString) (p : JSString)
    (h : firstExisting fs l = some p) : p ∈ l := by
  obtain ⟨i, hi, _⟩ := (firstExisting_eq_some fs l p).1 h
  exact List.getElem?_mem hi

/-- The path that `findRoutingModule` returns is never the empty string, so
the test `if (childRoutingFile)` of the builder fails for `null` only. -/
theorem findRoutingModule_ne_nil (fs : FileSystem) (modulePath fromFile p : JSString)
    (h : findRoutingModule fs modulePath fromFile = some p) : p ≠ [] :=
  patterns_ne_nil _ (searchPath_ne_nil fs modulePath fromFile) p (firstExisting_mem fs _ p h)

/-- For a declaration with a non-empty import reference the child file of the
builder is what the resolver returns. -/
theorem childRoutingFile_eq (fs : FileSystem) (path ref file : JSString) (href : ref ≠ []) :
    childRoutingFile fs ⟨path, some ref, file⟩ = findRoutingModule fs ref file := by
  unfold childRoutingFile
  have : (ref.length != 0) = true := by simpa using href
  simp only [this, if_true]
  cases hf : findRoutingModule fs ref file with
  | none => rfl
  | some p =>
    have := findRoutingModule_ne_nil fs ref file p hf
    simp [this]

/-! ## Lemmas on the matcher: the fuel of the `exec` loop is enough -/

theorem starGreedy_rest {α : Type} (p : Nat → Bool) (k : JSString → Option α) (x : α) :
    ∀ s : JSString, starGreedy p s k = some x →
      ∃ s1 : JSString, k s1 = some x ∧ s1.length ≤ s.length := by
  intro s
  induction s with
  | nil => intro h; exact ⟨[], h, Nat.le_refl _⟩
  | cons c cs ih =>
    intro h
    rw [starGreedy] at h
    split at h
    · cases hg : starGreedy p cs k with
      | some r =>
        simp only [hg, Option.some.injEq] at h
        subst h
        obtain ⟨s1, hk, hl⟩ := ih hg
        exact ⟨s1, hk, by simp only [List.length_cons]; omega⟩
      | none =>
        simp only [hg] at h
        exact ⟨c :: cs, h, Nat.le_refl _⟩
    · exact ⟨c :: cs, h, Nat.le_refl _⟩

theorem starLazy_rest {α : Type} (p : Nat → Bool) (k : JSString → Option α) (x : α) :
    ∀ s : JSString, starLazy p s k = some x →
      ∃ s1 : JSString, k s1 = some x ∧ s1.length ≤ s.length := by
  intro s
  induction s with
  | nil => intro h; exact ⟨[], h, Nat.le_refl _⟩
  | cons c cs ih =>
    intro h
    rw [starLazy] at h
    cases hk : k (c :: cs) with
    | some r =>
      simp only [hk, Option.some.injEq] at h
      subst h
      exact ⟨c :: cs, hk, Nat.le_refl _⟩
    | none =>
      simp only [hk] at h
      split at h
      · obtain ⟨s1, hk1, hl⟩ := ih h
        exact ⟨s1, hk1, by simp only [List.length_cons]; omega⟩
      · cases h

theorem run_rest {α : Type} (r : Re) :
    ∀ (s : JSString) (caps : Caps) (k : JSString → Caps → Option α) (x : α),
      r.run s caps k = some x →
      ∃ (s1 : JSString) (caps1 : Caps), k s1 caps1 = some x ∧ s1.length ≤ s.length ∧
        (r.nonEmpty = true → s1.length < s.length) := by
  induction r with
  | cls p =>
    intro s caps k x h
    cases s with
    | nil => simp [Re.run] at h
    | cons c cs =>
      rw [Re.run] at h
      split at h
      · exact ⟨cs, caps, h, by simp, fun _ => by simp⟩
      · cases h
  | eps =>
    intro s caps k x h
    exact ⟨s, caps, h, Nat.le_refl _, fun hn => by simp [Re.nonEmpty] at hn⟩
  | seq a b iha ihb =>
    intro s caps k x h
    rw [Re.run] at h
    obtain ⟨s1, caps1, h1, hl1, hn1⟩ := iha s caps _ x h
    obtain ⟨s2, caps2, h2, hl2, hn2⟩ := ihb s1 caps1 k x h1
    refine ⟨s2, caps2, h2, by omega, ?_⟩
    intro hn
    simp only [Re.nonEmpty, Bool.or_eq_true] at hn
    rcases hn with hn | hn
    · have := hn1 hn; omega
    · have := hn2 hn; omega
  | star greedy p =>
    intro s caps k x h
    cases greedy with
    | true =>
      rw [Re.run] at h
      obtain ⟨s1, hk, hl⟩ := starGreedy_rest p _ x s h
      exact ⟨s1, caps, hk, hl, fun hn => by simp [Re.nonEmpty] at hn⟩
    | false =>
      rw [Re.run] at h
      obtain ⟨s1, hk, hl⟩ := starLazy_rest p _ x s h
      exact ⟨s1, caps, hk, hl, fun hn => by simp [Re.nonEmpty] at hn⟩
  | opt a iha =>
    intro s caps k x h
    rw [Re.run] at h
    cases ha : a.run s caps k with
    | some r =>
      simp only [ha, Option.some.injEq] at h
      subst h
      obtain ⟨s1, caps1, h1, hl1, _⟩ := iha s caps k r ha
      exact ⟨s1, caps1, h1, hl1, fun hn => by simp [Re.nonEmpty] at hn⟩
    | none =>
      simp only [ha] at h
      exact ⟨s, caps, h, Nat.le_refl _, fun hn => by simp [Re.nonEmpty] at hn⟩
  | group i a iha =>
    intro s caps k x h
    rw [Re.run] at h
    obtain ⟨s1, caps1, h1, hl1, hn1⟩ := iha s caps _ x h
    exact ⟨s1, _, h1, hl1, fun hn => hn1 (by simpa [Re.nonEmpty] using hn)⟩

theorem exec_rest (re : Re) (hne : re.nonEmpty = true) (ngroups : Nat) :
    ∀ (s : JSString) (caps : Caps) (rest : JSString),
      re.exec ngroups s = some (caps, rest) → rest.length < s.length := by
  intro s
  induction s with
  | nil =>
    intro caps rest h
    rw [Re.exec] at h
    obtain ⟨s1, caps1, h1, _, hn⟩ := run_rest re [] _ _ _ h
    have := hn hne
    simp at this
  | cons c cs ih =>
    intro caps rest h
    rw [Re.exec] at h
    cases hr : re.run (c :: cs) (List.replicate ngroups none)
        (fun rest caps => some (caps, rest)) with
    | some r =>
      simp only [hr, Option.some.injEq] at h
      subst h
      obtain ⟨s1, caps1, h1, _, hn⟩ := run_rest re (c :: cs) _ _ _ hr
      simp only [Option.some.injEq, Prod.mk.injEq] at h1
      have := hn hne
      rw [← h1.2]
      exact this
    | none =>
      simp only [hr] at h
      have := ih caps rest h
      simp only [List.length_cons]
      omega

/-- Any fuel above the length of the text gives the same matches: the loop
of `exec` calls ends by itself, with `null`. -/
theorem execAll_fuel (re : Re) (hne : re.nonEmpty = true) (ngroups : Nat) :
    ∀ (fuel1 fuel2 : Nat) (s : JSString), s.length < fuel1 → s.length < fuel2 →
      re.execAll ngroups fuel1 s = re.execAll ngroups fuel2 s := by
  intro fuel1
  induction fuel1 with
  | zero => intro fuel2 s h; omega
  | succ fuel1 ih =>
    intro fuel2 s h1 h2
    cases fuel2 with
    | zero => omega
    | succ fuel2 =>
      rw [Re.execAll, Re.execAll]
      cases he : re.exec ngroups s with
      | none => rfl
      | some res =>
        obtain ⟨caps, rest⟩ := res
        have := exec_rest re hne ngroups s caps rest he
        simp only []
        rw [ih fuel2 rest (by omega) (by omega)]

/-- The patterns of the script all start with a literal. -/
theorem patterns_nonEmpty :
    pathRegex.nonEmpty = true ∧ (∀ re ∈ htmlPatterns, re.nonEmpty = true) ∧
      (∀ re ∈ tsPatterns, re.nonEmpty = true) := by
  refine ⟨rfl, ?_, ?_⟩
  · intro re h
    simp only [htmlPatterns, List.mem_cons, List.mem_singleton, List.not_mem_nil, or_false] at h
    rcases h with rfl | rfl | rfl <;> rfl
  · intro re h
    simp only [tsPatterns, List.mem_cons, List.mem_singleton, List.not_mem_nil, or_false] at h
    rcases h with rfl | rfl <;> rfl

/-! ## Lemmas on the parser -/

theorem starGreedy_sound {α : Type} (p : Nat → Bool) (k : JSString → Option α) (x : α) :
    ∀ s : JSString, starGreedy p s k = some x →
      ∃ w s1 : JSString, s = w ++ s1 ∧ (∀ a ∈ w, p a = true) ∧ k s1 = some x := by
  intro s
  induction s with
  | nil => intro h; exact ⟨[], [], rfl, by simp, h⟩
  | cons c cs ih =>
    intro h
    rw [starGreedy] at h
    split at h
    · next hp =>
      cases hg : starGreedy p cs k with
      | some r =>
        simp only [hg, Option.some.injEq] at h
        subst h
        obtain ⟨w, s1, hs, hw, hk⟩ := ih hg
        refine ⟨c :: w, s1, by simp [hs], ?_, hk⟩
        intro a ha
        simp only [List.mem_cons] at ha
        rcases ha with rfl | ha
        · exact hp
        · exact hw a ha
      | none =>
        simp only [hg] at h
        exact ⟨[], c :: cs, rfl, by simp, h⟩
    · exact ⟨[], c :: cs, rfl, by simp, h⟩

theorem starLazy_sound {α : Type} (p : Nat → Bool) (k : JSString → Option α) (x : α) :
    ∀ s : JSString, starLazy p s k = some x →
      ∃ w s1 : JSString, s = w ++ s1 ∧ (∀ a ∈ w, p a = true) ∧ k s1 = some x := by
  intro s
  induction s with
  | nil => intro h; exact ⟨[], [], rfl, by simp, h⟩
  | cons c cs ih =>
    intro h
    rw [starLazy] at h
    cases hk : k (c :: cs) with
    | some r =>
      simp only [hk, Option.some.injEq] at h
      subst h
      exact ⟨[], c :: cs, rfl, by simp, hk⟩
    | none =>
      simp only [hk] at h
      split at h
      · next hp =>
        obtain ⟨w, s1, hs, hw, hk1⟩ := ih h
        refine ⟨c :: w, s1, by simp [hs], ?_, hk1⟩
        intro a ha
        simp only [List.mem_cons] at ha
        rcases ha with rfl | ha
        · exact hp
        · exact hw a ha
      · cases h

theorem run_sound {α : Type} (r : Re) :
    ∀ (s : JSString) (caps : Caps) (k : JSString → Caps → Option α) (x : α),
      r.run s caps k = some x →
      ∃ (w s1 : JSString) (caps1 : Caps), s = w ++ s1 ∧ Re.Sem r w caps caps1 ∧
        k s1 caps1 = some x := by
  induction r with
  | cls p =>
    intro s caps k x h
    cases s with
    | nil => simp [Re.run] at h
    | cons c cs =>
      rw [Re.run] at h
      split at h
      · next hp => exact ⟨[c], cs, caps, rfl, ⟨c, rfl, hp, rfl⟩, h⟩
      · cases h
  | eps =>
    intro s caps k x h
    exact ⟨[], s, caps, rfl, ⟨rfl, rfl⟩, h⟩
  | seq a b iha ihb =>
    intro s caps k x h
    rw [Re.run] at h
    obtain ⟨w1, s1, mid, hs1, hsem1, h1⟩ := iha s caps _ x h
    obtain ⟨w2, s2, caps2, hs2, hsem2, h2⟩ := ihb s1 mid k x h1
    exact ⟨w1 ++ w2, s2, caps2, by rw [hs1, hs2, List.append_assoc],
      ⟨w1, w2, mid, rfl, hsem1, hsem2⟩, h2⟩
  | star greedy p =>
    intro s caps k x h
    cases greedy with
    | true =>
      rw [Re.run] at h
      obtain ⟨w, s1, hs, hw, hk⟩ := starGreedy_sound p _ x s h
      exact ⟨w, s1, caps, hs, ⟨hw, rfl⟩, hk⟩
    | false =>
      rw [Re.run] at h
      obtain ⟨w, s1, hs, hw, hk⟩ := starLazy_sound p _ x s h
      exact ⟨w, s1, caps, hs, ⟨hw, rfl⟩, hk⟩
  | opt a iha =>
    intro s caps k x h
    rw [Re.run] at h
    cases ha : a.run s caps k with
    | some r =>
      simp only [ha, Option.some.injEq] at h
      subst h
      obtain ⟨w, s1, caps1, hs, hsem, hk⟩ := iha s caps k r ha
      exact ⟨w, s1, caps1, hs, Or.inl hsem, hk⟩
    | none =>
      simp only [ha] at h
      exact ⟨[], s, caps, rfl, Or.inr ⟨rfl, rfl⟩, h⟩
  | group i a iha =>
    intro s caps k x h
    rw [Re.run] at h
    obtain ⟨w, s1, caps1, hs, hsem, hk⟩ := iha s caps _ x h
    refine ⟨w, s1, _, hs, ⟨caps1, hsem, rfl⟩, ?_⟩
    rw [← hk, hs]
    simp

theorem exec_sound (re : Re) (ngroups : Nat) :
    ∀ (s : JSString) (caps : Caps) (rest : JSString),
      re.exec ngroups s = some (caps, rest) →
      ∃ before w : JSString, s = before ++ (w ++ rest) ∧
        Re.Sem re w (List.replicate ngroups none) caps := by
  intro s
  induction s with
  | nil =>
    intro caps rest h
    rw [Re.exec] at h
    obtain ⟨w, s1, caps1, hs, hsem, hk⟩ := run_sound re [] _ _ _ h
    simp only [Option.some.injEq, Prod.mk.injEq] at hk
    obtain ⟨rfl, rfl⟩ := hk
    exact ⟨[], w, by simpa using hs, hsem⟩
  | cons c cs ih =>
    intro caps rest h
    rw [Re.exec] at h
    cases hr : re.run (c :: cs) (List.replicate ngroups none)
        (fun rest caps => some (caps, rest)) with
    | some r =>
      simp only [hr, Option.some.injEq] at h
      subst h
      obtain ⟨w, s1, caps1, hs, hsem, hk⟩ := run_sound re (c :: cs) _ _ _ hr
      simp only [Option.some.injEq, Prod.mk.injEq] at hk
      obtain ⟨rfl, rfl⟩ := hk
      exact ⟨[], w, by simpa using hs, hsem⟩
    | none =>
      simp only [hr] at h
      obtain ⟨before, w, hs, hsem⟩ := ih caps rest h
      exact ⟨c :: before, w, by simp [hs], hsem⟩

theorem execAll_sound (re : Re) (ngroups : Nat) :
    ∀ (fuel : Nat) (s : JSString) (caps : Caps), caps ∈ re.execAll ngroups fuel s →
      ∃ before w after : JSString, s = before ++ (w ++ after) ∧
        Re.Sem re w (List.replicate ngroups none) caps := by
  intro fuel
  induction fuel with
  | zero => intro s caps h; simp [Re.execAll] at h
  | succ fuel ih =>
    intro s caps h
    rw [Re.execAll] at h
    cases he : re.exec ngroups s with
    | none => simp [he] at h
    | some res =>
      obtain ⟨caps0, rest⟩ := res
      simp only [he, List.mem_cons] at h
      obtain ⟨before, w, hs, hsem⟩ := exec_sound re ngroups s caps0 rest he
      rcases h with rfl | h
      · exact ⟨before, w, rest, hs, hsem⟩
      · obtain ⟨before1, w1, after1, hs1, hsem1⟩ := ih rest caps h
        refine ⟨before ++ w ++ before1, w1, after1, ?_, hsem1⟩
        rw [hs, hs1]
        simp

theorem sem_lit (l w : JSString) (caps caps1 : Caps) :
    Re.Sem (Re.lit l) w caps caps1 ↔ w = l ∧ caps1 = caps := by
  induction l generalizing w caps caps1 with
  | nil => simp [Re.lit, Re.Sem]
  | cons c cs ih =>
    simp only [Re.lit, Re.Sem, ih]
    constructor
    · rintro ⟨w1, w2, mid, rfl, ⟨a, rfl, ha, rfl⟩, rfl, rfl⟩
      simp only [beq_iff_eq] at ha
      subst ha
      exact ⟨rfl, rfl⟩
    · rintro ⟨rfl, rfl⟩
      exact ⟨[c], cs, caps1, rfl, ⟨c, rfl, by simp, rfl⟩, rfl, rfl⟩

theorem sem_plus (p : Nat → Bool) (w : JSString) (caps caps1 : Caps) :
    Re.Sem (Re.plus p) w caps caps1 ↔ (w ≠ [] ∧ ∀ a ∈ w, p a = true) ∧ caps1 = caps := by
  simp only [Re.plus, Re.Sem]
  constructor
  · rintro ⟨w1, w2, mid, rfl, ⟨a, rfl, ha, rfl⟩, hw2, rfl⟩
    refine ⟨⟨by simp, ?_⟩, rfl⟩
    intro b hb
    simp only [List.singleton_append, List.mem_cons] at hb
    rcases hb with rfl | hb
    · exact ha
    · exact hw2 b hb
  · rintro ⟨⟨hne, hall⟩, rfl⟩
    cases w with
    | nil => exact absurd rfl hne
    | cons a t =>
      exact ⟨[a], t, caps1, rfl, ⟨a, rfl, hall a (by simp), rfl⟩,
        fun b hb => hall b (by simp [hb]), rfl⟩

/-! ## Lemmas on the Navigation-Call Scanner -/

theorem capture_set_zero (raw : JSString) :
    capture ((List.replicate 1 none : Caps).set 0 (some raw)) 0 = some raw := by
  rfl

theorem arrayCall_shape (l1 l2 w : JSString) (caps : Caps) (body : Re)
    (hbody : ∀ w c c1, Re.Sem body w c c1 ↔ (w ≠ [] ∧ ∀ a ∈ w, notQuote a = true) ∧ c1 = c)
    (h : Re.Sem (Re.cat [Re.lit l1, .star true isWhiteSpace, Re.lit l2,
      .star true isWhiteSpace, .cls isQuote, .group 0 body, .cls isQuote])
      w (List.replicate 1 none) caps) :
    ∃ ws1 ws2 q1 raw q2,
      w = l1 ++ (ws1 ++ (l2 ++ (ws2 ++ (q1 :: (raw ++ [q2]))))) ∧
      (∀ c ∈ ws1, isWhiteSpace c = true) ∧ (∀ c ∈ ws2, isWhiteSpace c = true) ∧
      isQuote q1 = true ∧ isQuote q2 = true ∧ raw ≠ [] ∧ (∀ c ∈ raw, isQuote c = false) ∧
      capture caps 0 = some raw := by
  simp only [Re.cat, Re.Sem, sem_lit, hbody] at h
  obtain ⟨w1, r1, m1, rfl, ⟨rfl, rfl⟩, ws1, r2, m2, rfl, ⟨hws1, rfl⟩, w3, r3, m3, rfl,
    ⟨rfl, rfl⟩, ws2, r4, m4, rfl, ⟨hws2, rfl⟩, w5, r5, m5, rfl, ⟨q1, rfl, hq1, rfl⟩,
    raw, r6, m6, rfl, ⟨m7, ⟨⟨hne, hraw⟩, rfl⟩, rfl⟩, w7, r7, m8, rfl, ⟨q2, rfl, hq2, rfl⟩,
    rfl, rfl⟩ := h
  refine ⟨ws1, ws2, q1, raw, q2, by simp, hws1, hws2, hq1, hq2, hne, ?_, capture_set_zero raw⟩
  intro c hc
  have := hraw c hc
  simpa [notQuote] using this

theorem stringCall_shape (l1 w : JSString) (caps : Caps) (body : Re)
    (hbody : ∀ w c c1, Re.Sem body w c c1 ↔ (w ≠ [] ∧ ∀ a ∈ w, notQuote a = true) ∧ c1 = c)
    (h : Re.Sem (Re.cat [Re.lit l1, .star true isWhiteSpace,
      .cls isQuote, .group 0 body, .cls isQuote])
      w (List.replicate 1 none) caps) :
    ∃ ws1 q1 raw q2,
      w = l1 ++ (ws1 ++ (q1 :: (raw ++ [q2]))) ∧
      (∀ c ∈ ws1, isWhiteSpace c = true) ∧
      isQuote q1 = true ∧ isQuote q2 = true ∧ raw ≠ [] ∧ (∀ c ∈ raw, isQuote c = false) ∧
      capture caps 0 = some raw := by
  simp only [Re.cat, Re.Sem, sem_lit, hbody] at h
  obtain ⟨w1, r1, m1, rfl, ⟨rfl, rfl⟩, ws1, r2, m2, rfl, ⟨hws1, rfl⟩,
    w5, r5, m5, rfl, ⟨q1, rfl, hq1, rfl⟩,
    raw, r6, m6, rfl, ⟨m7, ⟨⟨hne, hraw⟩, rfl⟩, rfl⟩, w7, r7, m8, rfl, ⟨q2, rfl, hq2, rfl⟩,
    rfl, rfl⟩ := h
  refine ⟨ws1, q1, raw, q2, by simp, hws1, hq1, hq2, hne, ?_, capture_set_zero raw⟩
  intro c hc
  have := hraw c hc
  simpa [notQuote] using this

theorem navigateCall_shape (w : JSString) (caps : Caps)
    (h : Re.Sem navigateCall w (List.replicate 1 none) caps) :
    ∃ ws1 ws2 q1 raw q2,
      w = js ".navigate(" ++ (ws1 ++ (js "[" ++ (ws2 ++ (q1 :: (raw ++ [q2]))))) ∧
      (∀ c ∈ ws1, isWhiteSpace c = true) ∧ (∀ c ∈ ws2, isWhiteSpace c = true) ∧
      isQuote q1 = true ∧ isQuote q2 = true ∧ raw ≠ [] ∧ (∀ c ∈ raw, isQuote c = false) ∧
      capture caps 0 = some raw :=
  arrayCall_shape (js ".navigate(") (js "[") w caps (Re.plus notQuote) (sem_plus notQuote) h

theorem navigateByUrlCall_shape (w : JSString) (caps : Caps)
    (h : Re.Sem navigateByUrlCall w (List.replicate 1 none) caps) :
    ∃ ws1 q1 raw q2,
      w = js ".navigateByUrl(" ++ (ws1 ++ (q1 :: (raw ++ [q2]))) ∧
      (∀ c ∈ ws1, isWhiteSpace c = true) ∧
      isQuote q1 = true ∧ isQuote q2 = true ∧ raw ≠ [] ∧ (∀ c ∈ raw, isQuote c = false) ∧
      capture caps 0 = some raw :=
  stringCall_shape (js ".navigateByUrl(") w caps (Re.plus notQuote) (sem_plus notQuote) h

theorem rawMatches_navigateCall (content raw : JSString)
    (h : raw ∈ rawMatches navigateCall content) : IsFirstArrayElement content raw := by
  unfold rawMatches at h
  rw [List.mem_map] at h
  obtain ⟨caps, hcaps, rfl⟩ := h
  obtain ⟨before, w, after, hs, hsem⟩ := execAll_sound navigateCall 1 _ content caps hcaps
  obtain ⟨ws1, ws2, q1, raw, q2, rfl, h1, h2, h3, h4, h5, h6, hcap⟩ := navigateCall_shape w caps hsem
  rw [hcap]
  exact ⟨before, ws1, ws2, q1, q2, after, by simp [hs], h1, h2, h3, h4, h5, h6⟩

theorem rawMatches_navigateByUrlCall (content raw : JSString)
    (h : raw ∈ rawMatches navigateByUrlCall content) : IsUrlArgument content raw := by
  unfold rawMatches at h
  rw [List.mem_map] at h
  obtain ⟨caps, hcaps, rfl⟩ := h
  obtain ⟨before, w, after, hs, hsem⟩ := execAll_sound navigateByUrlCall 1 _ content caps hcaps
  obtain ⟨ws1, q1, raw, q2, rfl, h1, h3, h4, h5, h6, hcap⟩ := navigateByUrlCall_shape w caps hsem
  rw [hcap]
  exact ⟨before, ws1, q1, q2, after, by simp [hs], h1, h3, h4, h5, h6⟩

theorem mem_foldl_addMatch (keep : JSString → Bool) (raws : List JSString) :
    ∀ (set : List JSString) (route : JSString), route ∈ raws.foldl (addMatch keep) set →
      route ∈ set ∨ ∃ raw ∈ raws, route = cleanRoute raw ∧ keep route = true := by
  induction raws with
  | nil => intro set route h; exact Or.inl (by simpa using h)
  | cons raw raws ih =>
    intro set route h
    rw [List.foldl_cons] at h
    rcases ih _ route h with h1 | ⟨raw1, hraw1, h1⟩
    · unfold addMatch at h1
      by_cases hk : keep (cleanRoute raw) = true
      · simp only [hk, if_true, setAdd] at h1
        by_cases hm : cleanRoute raw ∈ set
        · rw [if_pos hm] at h1
          exact Or.inl h1
        · rw [if_neg hm] at h1
          simp only [List.mem_append, List.mem_singleton] at h1
          rcases h1 with h1 | rfl
          · exact Or.inl h1
          · exact Or.inr ⟨raw, by simp, rfl, hk⟩
      · simp only [hk, if_false] at h1
        exact Or.inl h1
    · exact Or.inr ⟨raw1, by simp [hraw1], h1⟩

theorem mem_scanContent (pats : List Re) (keep : JSString → Bool) (content : JSString) :
    ∀ (set : List JSString) (route : JSString), route ∈ scanContent pats keep content set →
      route ∈ set ∨ ∃ pattern ∈ pats, ∃ raw ∈ rawMatches pattern content,
        route = cleanRoute raw ∧ keep route = true := by
  unfold scanContent
  induction pats with
  | nil => intro set route h; exact Or.inl (by simpa using h)
  | cons pattern pats ih =>
    intro set route h
    rw [List.foldl_cons] at h
    rcases ih _ route h with h1 | ⟨p1, hp1, raw, hraw, h1⟩
    · rcases mem_foldl_addMatch keep _ set route h1 with h2 | ⟨raw, hraw, h2⟩
      · exact Or.inl h2
      · exact Or.inr ⟨pattern, by simp, raw, hraw, h2⟩
    · exact Or.inr ⟨p1, by simp [hp1], raw, hraw, h1⟩

/-! ## Lemmas on cycles of the module graph -/

theorem concat_not_ok {α : Type} (os : List (Outcome (List α)))
    (h : ∃ o ∈ os, ∀ v, o ≠ Outcome.ok v) : ∀ v, Outcome.concat os ≠ .ok v := by
  induction os with
  | nil => simp at h
  | cons o os ih =>
    obtain ⟨o1, ho1, hne⟩ := h
    intro v
    cases o with
    | ok xs =>
      simp only [List.mem_cons] at ho1
      rcases ho1 with rfl | ho1
      · exact absurd rfl (hne xs)
      · simp only [Outcome.concat, Outcome.bind]
        cases hcs : Outcome.concat os with
        | ok ys => exact absurd hcs (ih ⟨o1, ho1, hne⟩ ys)
        | error => simp [Outcome.map]
        | diverge => simp [Outcome.map]
    | error => simp [Outcome.concat, Outcome.bind]
    | diverge => simp [Outcome.concat, Outcome.bind]

theorem concat_ne_error {α : Type} (os : List (Outcome (List α)))
    (h : ∀ o ∈ os, o ≠ Outcome.error) : Outcome.concat os ≠ .error := by
  induction os with
  | nil => simp [Outcome.concat]
  | cons o os ih =>
    have ho := h o (List.mem_cons_self _ _)
    have ht := ih (fun o1 h1 => h o1 (List.mem_cons_of_mem _ h1))
    cases o with
    | ok xs =>
      simp only [Outcome.concat, Outcome.bind]
      cases hcs : Outcome.concat os with
      | ok ys => simp [Outcome.map]
      | error => exact absurd hcs ht
      | diverge => simp [Outcome.map]
    | error => exact absurd rfl ho
    | diverge => simp [Outcome.concat, Outcome.bind]

theorem routeTreeSpec_cycle (fs : FileSystem) (onCycle : JSString → Prop)
    (hcycle : ∀ f, onCycle f → ∃ content d g, fs.readFileSync f = some content ∧
      d ∈ parseContent content f ∧ childRoutingFile fs d = some g ∧ onCycle g) :
    ∀ (fuel : Nat) (file q : JSString), onCycle file →
      ∀ v, routeTreeSpec fs fuel file q ≠ .ok v := by
  intro fuel
  induction fuel with
  | zero => intro file q _ v; simp [routeTreeSpec]
  | succ fuel ih =>
    intro file q hfile v
    obtain ⟨content, d, g, hread, hd, hchild, hg⟩ := hcycle file hfile
    rw [routeTreeSpec]
    simp only [hread]
    apply concat_not_ok
    refine ⟨_, List.mem_map.2 ⟨d, hd, rfl⟩, ?_⟩
    intro v1
    simp only [hchild]
    cases hs : routeTreeSpec fs fuel g (fullPathOf q d.path) with
    | ok rs => exact absurd hs (ih g _ hg rs)
    | error => simp [Outcome.map]
    | diverge => simp [Outcome.map]

theorem routeTreeSpec_ne_error (fs : FileSystem)
    (hreadable : ∀ f content d g, fs.readFileSync f = some content →
      d ∈ parseContent content f → childRoutingFile fs d = some g →
      fs.readFileSync g ≠ none) :
    ∀ (fuel : Nat) (file q : JSString), fs.readFileSync file ≠ none →
      routeTreeSpec fs fuel file q ≠ .error := by
  intro fuel
  induction fuel with
  | zero => intro file q _; simp [routeTreeSpec]
  | succ fuel ih =>
    intro file q hfile
    rw [routeTreeSpec]
    cases hr : fs.readFileSync file with
    | none => exact absurd hr hfile
    | some content =>
      apply concat_ne_error
      intro o ho
      simp only [List.mem_map] at ho
      obtain ⟨d, hd, rfl⟩ := ho
      cases hch : childRoutingFile fs d with
      | none => simp
      | some child =>
        have := ih child (fullPathOf q d.path) (hreadable file content d child hr hd hch)
        simp only []
        cases hs : routeTreeSpec fs fuel child (fullPathOf q d.path) with
        | ok rs => simp [Outcome.map]
        | error => exact absurd hs this
        | diverge => simp [Outcome.map]

theorem routeTreeSpec_terminates_on (fs : FileSystem) (reachable : JSString → Prop)
    (rank : JSString → Nat)
    (hacyclic : ∀ f content d g, reachable f → fs.readFileSync f = some content →
      d ∈ parseContent content f → childRoutingFile fs d = some g →
      reachable g ∧ rank g < rank f) :
    ∀ (fuel : Nat) (file q : JSString), reachable file → rank file < fuel →
      routeTreeSpec fs fuel file q ≠ .diverge := by
  intro fuel
  induction fuel with
  | zero => intro file q _ h; omega
  | succ fuel ih =>
    intro file q hfile h
    rw [routeTreeSpec]
    cases hr : fs.readFileSync file with
    | none => simp
    | some content =>
      apply concat_ne_diverge
      intro o ho
      simp only [List.mem_map] at ho
      obtain ⟨d, hd, rfl⟩ := ho
      cases hch : childRoutingFile fs d with
      | none => simp
      | some child =>
        obtain ⟨hreach, hlt⟩ := hacyclic file content d child hfile hr hd hch
        have := ih child (fullPathOf q d.path) hreach (by omega)
        simp only []
        cases hs : routeTreeSpec fs fuel child (fullPathOf q d.path) with
        | ok rs => simp [Outcome.map]
        | error => simp [Outcome.map]
        | diverge => exact absurd hs this

theorem map_fst_eq_diverge {α β : Type} (o : Outcome (α × β))
    (h : o.map Prod.fst = .diverge) : o = .diverge := by
  cases o <;> simp [Outcome.map] at h ⊢

theorem selfLoopFs_cycle :
    ∀ f, (f = appRoutingFile ∨ f = resolvedAppRoutingFile) →
      ∃ content d g, selfLoopFs.readFileSync f = some content ∧
        d ∈ parseContent content f ∧ childRoutingFile selfLoopFs d = some g ∧
        (g = appRoutingFile ∨ g = resolvedAppRoutingFile) := by
  intro f hf
  rcases hf with rfl | rfl
  · exact ⟨selfLoopText, ⟨js "a", some (js "./app.module"), appRoutingFile⟩,
      resolvedAppRoutingFile, by decide, by decide, by decide, Or.inr rfl⟩
  · exact ⟨selfLoopText, ⟨js "a", some (js "./app.module"), resolvedAppRoutingFile⟩,
      resolvedAppRoutingFile, by decide, by decide, by decide, Or.inr rfl⟩

theorem selfLoopFs_readable :
    ∀ f content d g, selfLoopFs.readFileSync f = some content →
      d ∈ parseContent content f → childRoutingFile selfLoopFs d = some g →
      selfLoopFs.readFileSync g ≠ none := by
  intro f content d g hread hd hchild
  simp only [selfLoopFs] at hread
  split at hread
  · next h =>
    subst h
    cases hread
    have hp : parseContent selfLoopText appRoutingFile =
        [⟨js "a", some (js "./app.module"), appRoutingFile⟩] := by decide
    rw [hp] at hd
    simp only [List.mem_singleton] at hd
    subst hd
    have : childRoutingFile selfLoopFs ⟨js "a", some (js "./app.module"), appRoutingFile⟩ =
        some resolvedAppRoutingFile := by decide
    rw [this] at hchild
    cases hchild
    decide
  · split at hread
    · next h1 h =>
      subst h
      cases hread
      have hp : parseContent selfLoopText resolvedAppRoutingFile =
          [⟨js "a", some (js "./app.module"), resolvedAppRoutingFile⟩] := by decide
      rw [hp] at hd
      simp only [List.mem_singleton] at hd
      subst hd
      have : childRoutingFile selfLoopFs
          ⟨js "a", some (js "./app.module"), resolvedAppRoutingFile⟩ =
          some resolvedAppRoutingFile := by decide
      rw [this] at hchild
      cases hchild
      decide
    · cases hread

/-- The prefix of a result of `extractAllRoutes` is computed from the text of
the root routing file. -/
theorem extractAllRoutes_hashPrefix (fs : FileSystem) (fuel : Nat) (result : ExtractionResult)
    (h : extractAllRoutes fs fuel = .ok result) :
    ∃ content, fs.readFileSync appRoutingFile = some content ∧
      result.hashPrefix = hashPrefix content := by
  unfold extractAllRoutes at h
  split at h
  · cases h
  · cases hr : fs.readFileSync appRoutingFile with
    | none => simp [hr] at h
    | some content =>
      simp only [hr] at h
      cases hb : buildRouteTree fs fuel [] appRoutingFile [] with
      | ok res =>
        obtain ⟨rm, c⟩ := res
        simp only [hb, Outcome.bind] at h
        cases hf : findAllRoutingModules fs fuel appDir with
        | ok files =>
          simp only [hf] at h
          cases hh : scanHtmlFiles fs fuel appDir with
          | ok html =>
            simp only [hh] at h
            cases ht : scanTypeScriptFiles fs fuel appDir with
            | ok ts =>
              simp only [ht, Outcome.ok.injEq] at h
              subst h
              exact ⟨content, rfl, rfl⟩
            | error => simp [ht] at h
            | diverge => simp [ht] at h
          | error => simp [hh] at h
          | diverge => simp [hh] at h
        | error => simp [hf] at h
        | diverge => simp [hf] at h
      | error => simp [hb, Outcome.bind] at h
      | diverge => simp [hb, Outcome.bind] at h

/-- C1. Whenever `buildRouteTree` returns for a routing file under the parent
fully-qualified path `parentPath`, its result is the concatenation of one block
per declaration it visited in that file, in order, and the block of a
declaration with raw path `p` begins with the fully-qualified path appended for
it: exactly `p` when `parentPath` is the empty string, and
`parentPath ++ "/" ++ p` otherwise.  The statement holds for every call, hence
for the recursive ones too. -/
theorem buildRouteTree_fullPath (fs : FileSystem) (fuel : Nat) (cache : ModuleCache)
    (routingFile parentPath : JSString) (out : List JSString)
    (h : (buildRouteTree fs fuel cache routingFile parentPath).map Prod.fst = .ok out) :
    ∃ routes cache1 blocks,
      parseRoutingModule fs cache routingFile = .ok (routes, cache1) ∧
      out = List.flatten blocks ∧
      List.Forall₂
        (fun (route : RouteDeclaration) block => ∃ children,
          block = (if parentPath = [] then route.path
            else parentPath ++ js "/" ++ route.path) :: children)
        routes blocks := by
  cases fuel with
  | zero => simp [buildRouteTree, Outcome.map] at h
  | succ fuel =>
    rw [buildRouteTree] at h
    cases hp : parseRoutingModule fs cache routingFile with
    | ok res =>
      obtain ⟨routes, cache1⟩ := res
      simp only [hp] at h
      cases hl : buildLoop fs (buildRouteTree fs fuel) parentPath routes [] cache1 with
      | ok res2 =>
        obtain ⟨out2, cache2⟩ := res2
        rw [hl] at h
        simp only [Outcome.map, Outcome.ok.injEq] at h
        subst h
        obtain ⟨blocks, hout, hall⟩ := buildLoop_blocks fs _ parentPath routes [] cache1 _ _ hl
        refine ⟨routes, cache1, blocks, rfl, by simpa using hout, ?_⟩
        simpa only [fullPathOf_eq] using hall
      | error => rw [hl] at h; simp [Outcome.map] at h
      | diverge => rw [hl] at h; simp [Outcome.map] at h
    | error => simp [hp, Outcome.map] at h
    | diverge => simp [hp, Outcome.map] at h

/-- Witness of C1: the tree of the example whose root declares `admin` first. -/
theorem buildRouteTree_fullPath_witness :
    ∃ routes cache1 blocks,
      parseRoutingModule (exampleFs adminFirstText) [] appRoutingFile = .ok (routes, cache1) ∧
      [js "admin", js "admin/users", js "dashboard"] = List.flatten blocks ∧
      List.Forall₂
        (fun (route : RouteDeclaration) block => ∃ children,
          block = (if ([] : JSString) = [] then route.path
            else [] ++ js "/" ++ route.path) :: children)
        routes blocks :=
  buildRouteTree_fullPath (exampleFs adminFirstText) 2 [] appRoutingFile []
    [js "admin", js "admin/users", js "dashboard"] (by decide)

/-! ## C2 and C3: the Reconciler -/

/-- C2. For every three input collections the list `routes` returned by
`extractAllRoutes` is strictly ascending in the lexicographic order of code
units, hence sorted and without a repeated string; the list is strictly
ascending before the exclusion filter (`uniqueRoutes`) and after it
(`validRoutes`). -/
theorem validRoutes_strictly_ascending (routingModuleRoutes htmlRoutes tsRoutes : List JSString) :
    List.Sorted (fun x y => x < y) (uniqueRoutes routingModuleRoutes htmlRoutes tsRoutes) ∧
    List.Sorted (fun x y => x < y) (validRoutes routingModuleRoutes htmlRoutes tsRoutes) ∧
    List.Sorted (fun x y => x ≤ y) (validRoutes routingModuleRoutes htmlRoutes tsRoutes) ∧
    (validRoutes routingModuleRoutes htmlRoutes tsRoutes).Nodup := by
  have h := sorted_lt_uniqueRoutes routingModuleRoutes htmlRoutes tsRoutes
  have hv : List.Sorted (fun x y => x < y)
      (validRoutes routingModuleRoutes htmlRoutes tsRoutes) := h.filter _
  exact ⟨h, hv, hv.le_of_lt, hv.nodup⟩

/-- C3. A string is an element of the final list `routes` exactly when it
occurs in one of the three input collections, is not empty after trimming
white space, contains none of `**`, `:`, `undefined`, `null`, and is none of
the names `Login`, `Renewpassword`, `Forgotpassword`. -/
theorem mem_validRoutes_iff (routingModuleRoutes htmlRoutes tsRoutes : List JSString)
    (s : JSString) :
    s ∈ validRoutes routingModuleRoutes htmlRoutes tsRoutes ↔
      (s ∈ routingModuleRoutes ∨ s ∈ htmlRoutes ∨ s ∈ tsRoutes) ∧
      trim s ≠ [] ∧ ¬ js "**" <:+: s ∧ ¬ js ":" <:+: s ∧ ¬ js "undefined" <:+: s ∧
      ¬ js "null" <:+: s ∧ s ≠ js "Login" ∧ s ≠ js "Renewpassword" ∧
      s ≠ js "Forgotpassword" := by
  rw [validRoutes, List.mem_filter, isValidRoute_iff, uniqueRoutes, mem_sort, mem_setOf]
  simp only [List.mem_append, or_assoc]

/-! ## C4: the two-file scenario -/

/-- C4, counterexample. On the scenario's source tree (the root declares
`dashboard` and then the lazy route `admin`, the child file declares `users`)
`buildRouteTree` returns `["dashboard", "admin/users"]` for no recursion
depth. -/
theorem scenario_routes_counterexample :
    ¬ ∃ fuel, (buildRouteTree (exampleFs dashboardFirstText) fuel [] appRoutingFile []).map
      Prod.fst = .ok [js "dashboard", js "admin/users"] := by
  rintro ⟨fuel, h⟩
  match fuel, h with
  | 0, h => exact absurd h (by decide)
  | 1, h => exact absurd h (by decide)
  | n + 2, h =>
    have hv : (buildRouteTree (exampleFs dashboardFirstText) (n + 2) [] appRoutingFile []).map
        Prod.fst = .ok [js "dashboard", js "dashboard/users"] := by rfl
    rw [hv] at h
    exact absurd h (by decide)

/-- C4, amended. With the lazy route `admin` declared first in the root file
and `dashboard` second, and `users` declared in `admin/admin-routing.module.ts`,
`buildRouteTree` on the root file with the empty parent path returns exactly
`["admin", "admin/users", "dashboard"]` at every recursion depth of two or
more: the declaring route `admin` is emitted itself, before the routes of its
child file. -/
theorem scenario_routes_admin_first (n : Nat) :
    (buildRouteTree (exampleFs adminFirstText) (n + 2) [] appRoutingFile []).map Prod.fst =
      .ok [js "admin", js "admin/users", js "dashboard"] := by
  rfl

/-! ## C5 and C6: the Module Parser -/

/-- C5, the code at the failing input. In a file that declares `dashboard`
without `loadChildren` and then the lazy route `admin`, the parser reports one
declaration only: `dashboard`, paired with the import reference of `admin`. -/
theorem parseContent_pairs_later_loadChildren :
    parseContent dashboardFirstText appRoutingFile =
      [⟨js "dashboard", some (js "./admin/admin.module"), appRoutingFile⟩] := by
  decide

/-- C7. `findRoutingModule` probes the five candidates in their fixed order
and returns the first that exists: it returns `null` exactly when no candidate
exists, and it returns `p` exactly when `p` is the candidate at some position
of the list, `p` exists, and no candidate at an earlier position exists. -/
theorem findRoutingModule_first_existing (fs : FileSystem) (modulePath fromFile : JSString) :
    let base := searchPath fs modulePath fromFile
    let candidates := [
      base ++ js "-routing.module.ts",
      base ++ js ".routing.module.ts",
      pathJoin [base, js "routing.module.ts"],
      replaceFirst base (js ".module") (js "-routing.module") ++ js ".ts",
      replaceTsSuffix base]
    (findRoutingModule fs modulePath fromFile = none ↔
      ∀ p ∈ candidates, fs.existsSync p = false) ∧
    (∀ p, findRoutingModule fs modulePath fromFile = some p ↔
      ∃ i : Nat, candidates[i]? = some p ∧ fs.existsSync p = true ∧
        ∀ j : Nat, j < i → ∀ q, candidates[j]? = some q → fs.existsSync q = false) := by
  intro base candidates
  exact ⟨firstExisting_eq_none fs candidates, firstExisting_eq_some fs candidates⟩

/-! ## C8: the Route Tree Builder -/

/-- C8. On an acyclic module graph (every resolved child file has a smaller
rank than the file that declares it) and with a consistent parse cache,
`buildRouteTree` terminates once the fuel exceeds the rank of the file, and
its result is the concatenation, over the declarations of the file in source
order, of the declaration's fully-qualified path followed by the result of
`buildRouteTree` on the child file with that path as parent; a declaration
without a resolved child contributes its own path only.  An unreadable file
is an error, propagated. -/
theorem buildRouteTree_preorder (fs : FileSystem) (rank : JSString → Nat)
    (hacyclic : ∀ file content d child, fs.readFileSync file = some content →
      d ∈ parseContent content file → childRoutingFile fs d = some child →
      rank child < rank file)
    (cache : ModuleCache) (hcache : CacheOK fs cache) (file parent : JSString) (fuel : Nat)
    (hfuel : rank file < fuel) :
    (buildRouteTree fs fuel cache file parent).map Prod.fst ≠ .diverge ∧
    (buildRouteTree fs fuel cache file parent).map Prod.fst =
      match fs.readFileSync file with
      | none => .error
      | some content =>
        Outcome.concat ((parseContent content file).map fun d =>
          match childRoutingFile fs d with
          | none => .ok [if parent = [] then d.path else parent ++ js "/" ++ d.path]
          | some child =>
            ((buildRouteTree fs (fuel - 1) [] child
                (if parent = [] then d.path else parent ++ js "/" ++ d.path)).map Prod.fst).map
              (fun rs => (if parent = [] then d.path else parent ++ js "/" ++ d.path) :: rs)) := by
  have h1 := (buildRouteTree_agrees fs fuel cache file parent hcache).1
  refine ⟨?_, ?_⟩
  · rw [h1]
    exact routeTreeSpec_terminates fs rank hacyclic fuel file parent hfuel
  · rw [h1]
    obtain ⟨n, rfl⟩ : ∃ n, fuel = n + 1 := ⟨fuel - 1, by omega⟩
    rw [routeTreeSpec]
    simp only [Nat.add_sub_cancel, ← fullPathOf_eq]
    cases fs.readFileSync file with
    | none => rfl
    | some content =>
      simp only []
      congr 1
      apply List.map_congr_left
      intro d _
      cases childRoutingFile fs d with
      | none => rfl
      | some child =>
        simp only []
        rw [(buildRouteTree_agrees fs n [] child _ (cacheOK_nil fs)).1]

/-- Witness of C8: the example tree whose root declares `admin` first. -/
theorem buildRouteTree_preorder_witness :
    (buildRouteTree (exampleFs adminFirstText) 2 [] appRoutingFile []).map Prod.fst ≠ .diverge ∧
    (buildRouteTree (exampleFs adminFirstText) 2 [] appRoutingFile []).map Prod.fst =
      match (exampleFs adminFirstText).readFileSync appRoutingFile with
      | none => .error
      | some content =>
        Outcome.concat ((parseContent content appRoutingFile).map fun d =>
          match childRoutingFile (exampleFs adminFirstText) d with
          | none => .ok [if ([] : JSString) = [] then d.path else [] ++ js "/" ++ d.path]
          | some child =>
            ((buildRouteTree (exampleFs adminFirstText) (2 - 1) [] child
                (if ([] : JSString) = [] then d.path else [] ++ js "/" ++ d.path)).map
                  Prod.fst).map
              (fun rs => (if ([] : JSString) = [] then d.path else [] ++ js "/" ++ d.path) :: rs)) :=
  buildRouteTree_preorder (exampleFs adminFirstText) exampleRank exampleFs_acyclic []
    (cacheOK_nil _) appRoutingFile [] 2 (by decide)

/-! ## C9 and C10: the scanners -/

/-- C9, counterexample. References that the plain `routerLink` pattern
captures and whose cleaned form, as the Template Scanner returns it, begins
with a white-space character (`" a"`), begins with `/` (`"/b"`), or contains
`#` (`"cd#e"`) or ends with a white-space character (`"f "`). -/
theorem cleanRoute_counterexample :
    scanContent htmlPatterns htmlKeep
      (js "<a routerLink=\"/ a\"></a><a routerLink=\"#//b\"></a><a routerLink=\"c#d#e\"></a><a routerLink=\"f #\"></a>")
      [] = [js " a", js "/b", js "cd#e", js "f "] ∧
    cleanRoute (js "/ a") = 32 :: js "a" ∧ isWhiteSpace 32 = true ∧
    cleanRoute (js "#//b") = 47 :: js "b" ∧
    35 ∈ cleanRoute (js "c#d#e") ∧
    (cleanRoute (js "f #")).getLast? = some 32 := by
  decide

/-- C9, amended. The clean-up step applies three replacements once each, in
this order: it strips the surrounding quotes and white space, then the leading
slashes, then the first `#` with a `/` right after it.  The string after the
first step neither begins nor ends with a quote or white-space character; the
string after the second step does not begin with `/` and does not end with a
quote or white-space character; the final string holds one `#` fewer than the
captured string (none when that held at most one), and it is the string after
the second step when the captured string holds no `#`. -/
theorem cleanRoute_stages (raw : JSString) :
    let s1 := stripQuotesAndSpace raw
    let s2 := stripLeadingSlashes s1
    cleanRoute raw = removeHash s2 ∧
    (∀ c, s1.head? = some c → isQuoteOrSpace c = false) ∧
    (∀ c, s1.getLast? = some c → isQuoteOrSpace c = false) ∧
    s2.head? ≠ some 47 ∧
    (∀ c, s2.getLast? = some c → isQuoteOrSpace c = false) ∧
    (cleanRoute raw).count 35 = raw.count 35 - 1 ∧
    (35 ∉ raw → cleanRoute raw = s2) := by
  intro s1 s2
  have hlast1 : ∀ c, s1.getLast? = some c → isQuoteOrSpace c = false :=
    fun c hc => getLast?_dropWhileEnd_false _ _ c hc
  refine ⟨rfl, ?_, hlast1, ?_, ?_, ?_, ?_⟩
  · intro c hc
    have := head?_of_initial (dropWhileEnd_initial isQuoteOrSpace _) c hc
    exact head?_dropWhile_false _ _ c this
  · intro h
    have := head?_dropWhile_false _ _ 47 h
    simp at this
  · intro c hc
    exact hlast1 c (getLast?_of_final (List.dropWhile_suffix _) c hc)
  · show (removeHash s2).count 35 = _
    rw [count_removeHash, count_hash_strip]
  · intro h
    apply removeHash_of_not_mem
    have h0 : raw.count 35 = 0 := List.count_eq_zero.2 h
    have := count_hash_strip raw
    rw [h0] at this
    exact List.count_eq_zero.1 this

/-- C10. No string that `scanHtmlFiles` returns is empty, contains the
interpolation marker `{{` or contains the call marker `(`, whatever the
templates; so `reports/{{id}}` is never returned, and a template with the
link `routerLink="/reports/{{id}}"` adds nothing to the set of routes. -/
theorem scanHtmlFiles_literal (fs : FileSystem) (fuel : Nat) (dir : JSString)
    (out : List JSString) (h : scanHtmlFiles fs fuel dir = .ok out) :
    (∀ r ∈ out, r ≠ [] ∧ ¬ js "\x7b\x7b" <:+: r ∧ ¬ js "(" <:+: r) ∧
    js "reports/\x7b\x7bid\x7d\x7d" ∉ out ∧
    (∀ set, scanContent htmlPatterns htmlKeep reportsTemplate set = set) := by
  have hall : ∀ r ∈ out, htmlKeep r = true :=
    scanDirectory_inv fs (htmlOnFile fs) (fun set => ∀ r ∈ set, htmlKeep r = true)
      (fun file fullPath st st1 hP hf => htmlOnFile_inv fs file fullPath st st1 hP hf)
      fuel dir [] out (by simp) h
  refine ⟨fun r hr => (htmlKeep_iff r).1 (hall r hr), ?_, ?_⟩
  · intro hm
    have := hall _ hm
    revert this
    decide
  · intro set
    have h1 : rawMatches routerLinkPlain reportsTemplate = [js "/reports/\x7b\x7bid\x7d\x7d"] := by
      decide
    have h2 : rawMatches routerLinkBound reportsTemplate = [] := by decide
    have h3 : rawMatches routerLinkArray reportsTemplate = [] := by decide
    have h4 : htmlKeep (cleanRoute (js "/reports/\x7b\x7bid\x7d\x7d")) = false := by decide
    simp [scanContent, htmlPatterns, h1, h2, h3, addMatch, h4]

/-- Witness of C10: the templates of the example tree. -/
theorem scanHtmlFiles_literal_witness :
    (∀ r ∈ [js "home"], r ≠ [] ∧ ¬ js "\x7b\x7b" <:+: r ∧ ¬ js "(" <:+: r) ∧
    js "reports/\x7b\x7bid\x7d\x7d" ∉ [js "home"] ∧
    (∀ set, scanContent htmlPatterns htmlKeep reportsTemplate set = set) :=
  scanHtmlFiles_literal (exampleFs adminFirstText) 2 appDir [js "home"] (by decide)

/-! ## C11: the Navigation-Call Scanner -/

/-- C11. Every route that the Navigation-Call Scanner takes from the text of
a source file is the cleaned form of a string that stands in first position
of the array argument of a `.navigate(` call (or is the argument of a
`.navigateByUrl(` call), one per match: an element in a later position is
not captured.  For a file whose only navigation call is
`this.router.navigate(['settings', 'profile'])` the scanned set, and the array
that `scanTypeScriptFiles` returns, is exactly `["settings"]`. -/
theorem scanTypeScript_first_element (content : JSString) :
    (∀ route ∈ scanContent tsPatterns tsKeep content [],
      ∃ raw, route = cleanRoute raw ∧
        (IsFirstArrayElement content raw ∨ IsUrlArgument content raw)) ∧
    rawMatches navigateCall settingsSource = [js "settings"] ∧
    scanContent tsPatterns tsKeep settingsSource [] = [js "settings"] ∧
    scanTypeScriptFiles navigationFs 1 appDir = .ok [js "settings"] := by
  refine ⟨?_, by decide, by decide, by decide⟩
  intro route hroute
  rcases mem_scanContent tsPatterns tsKeep content [] route hroute with h | h
  · simp at h
  · obtain ⟨pattern, hp, raw, hraw, hr, _⟩ := h
    refine ⟨raw, hr, ?_⟩
    simp only [tsPatterns, List.mem_cons, List.mem_singleton, List.not_mem_nil, or_false] at hp
    rcases hp with rfl | rfl
    · exact Or.inl (rawMatches_navigateCall content raw hraw)
    · exact Or.inr (rawMatches_navigateByUrlCall content raw hraw)

/-! ## C12: the hash prefix and the full URLs -/

/-- C12. For every text of the root routing file, `hashPrefix` is `"#/"` when
the text contains `useHash: true` and `"/"` otherwise; and for every list
`routes`, the array of full URLs has the length of `routes` and holds at every
index the prefix followed by the route at that index, while `routes` itself
stays as it is. -/
theorem fullUrls_uniform (appRoutingContent : JSString) (routes : List JSString)
    (stats : Stats) :
    (js "useHash: true" <:+: appRoutingContent → hashPrefix appRoutingContent = js "#/") ∧
    (¬ js "useHash: true" <:+: appRoutingContent → hashPrefix appRoutingContent = js "/") ∧
    (fullUrls ⟨routes, hashPrefix appRoutingContent, stats⟩).length = routes.length ∧
    (∀ i : Nat, (fullUrls ⟨routes, hashPrefix appRoutingContent, stats⟩)[i]? =
      (routes[i]?).map (fun r => hashPrefix appRoutingContent ++ r)) ∧
    (⟨routes, hashPrefix appRoutingContent, stats⟩ : ExtractionResult).routes = routes := by
  refine ⟨?_, ?_, ?_, ?_, rfl⟩
  · intro h
    unfold hashPrefix
    rw [if_pos ((includes_iff _ _).2 h)]
  · intro h
    unfold hashPrefix
    rw [if_neg (fun hc => h ((includes_iff _ _).1 hc))]
  · simp [fullUrls]
  · intro i
    simp [fullUrls]

/-! ## C13: the names of resolved files -/

/-- C13, the code at the failing inputs. For the reference `./admin/admin`,
which holds no `.module`, the resolver returns the plain module file
`admin/admin.ts` (the fourth candidate); for the reference `./shared` it
returns the directory `shared` itself (the fifth candidate).  Neither path
ends with `-routing.module.ts`, `.routing.module.ts` or `/routing.module.ts`,
and the builder fails on the directory. -/
theorem findRoutingModule_plain_module :
    findRoutingModule moduleOnlyFs (js "./admin/admin") appRoutingFile =
      some (js "/proj/src/app/admin/admin.ts") ∧
    endsWith (js "/proj/src/app/admin/admin.ts") (js "-routing.module.ts") = false ∧
    endsWith (js "/proj/src/app/admin/admin.ts") (js ".routing.module.ts") = false ∧
    endsWith (js "/proj/src/app/admin/admin.ts") (js "/routing.module.ts") = false ∧
    findRoutingModule moduleOnlyFs (js "./shared") appRoutingFile =
      some (js "/proj/src/app/shared") ∧
    endsWith (js "/proj/src/app/shared") (js "-routing.module.ts") = false ∧
    endsWith (js "/proj/src/app/shared") (js ".routing.module.ts") = false ∧
    endsWith (js "/proj/src/app/shared") (js "/routing.module.ts") = false ∧
    buildRouteTree moduleOnlyFs 1 [] (js "/proj/src/app/shared") (js "shared") = .error := by
  decide

/-! ## C14: cycles of the module graph -/

/-- C14. `buildRouteTree` detects no cycle.  In a set of routing files each of
which has a parsed declaration whose `loadChildren` resolves to a file of the
set (a file that resolves to itself, the files of a cycle, a file that leads
into one), the call on any file of the set returns at no recursion depth and
from no state of the parse cache; when moreover every resolved file can be
read, the call is cut off at every depth, that is, it recurses forever.  When
the files reachable from a file carry a rank that decreases along every
resolved reference, the call on it terminates at every depth above its
rank. -/
theorem buildRouteTree_cycle (fs : FileSystem) :
    (∀ onCycle : JSString → Prop,
      (∀ f, onCycle f → ∃ content d g, fs.readFileSync f = some content ∧
        d ∈ parseContent content f ∧ childRoutingFile fs d = some g ∧ onCycle g) →
      ∀ file, onCycle file → ∀ (fuel : Nat) (cache : ModuleCache) (parent : JSString),
        CacheOK fs cache →
        (∀ out cache1, buildRouteTree fs fuel cache file parent ≠ .ok (out, cache1)) ∧
        ((∀ f content d g, fs.readFileSync f = some content →
            d ∈ parseContent content f → childRoutingFile fs d = some g →
            fs.readFileSync g ≠ none) →
          buildRouteTree fs fuel cache file parent = .diverge)) ∧
    (∀ (reachable : JSString → Prop) (rank : JSString → Nat),
      (∀ f content d g, reachable f → fs.readFileSync f = some content →
        d ∈ parseContent content f → childRoutingFile fs d = some g →
        reachable g ∧ rank g < rank f) →
      ∀ file, reachable file → ∀ (fuel : Nat) (cache : ModuleCache) (parent : JSString),
        CacheOK fs cache → rank file < fuel →
        buildRouteTree fs fuel cache file parent ≠ .diverge) := by
  refine ⟨?_, ?_⟩
  · intro onCycle hcycle file hfile fuel cache parent hcache
    have hag := (buildRouteTree_agrees fs fuel cache file parent hcache).1
    have hnot := routeTreeSpec_cycle fs onCycle hcycle fuel file parent hfile
    refine ⟨?_, ?_⟩
    · intro out cache1 h
      rw [h] at hag
      exact hnot out hag.symm
    · intro hreadable
      obtain ⟨content, _, _, hread, _⟩ := hcycle file hfile
      have hne := routeTreeSpec_ne_error fs hreadable fuel file parent (by simp [hread])
      apply map_fst_eq_diverge
      rw [hag]
      cases hs : routeTreeSpec fs fuel file parent with
      | ok v => exact absurd hs (hnot v)
      | error => exact absurd hs hne
      | diverge => rfl
  · intro reachable rank hacyclic file hfile fuel cache parent hcache hfuel h
    have hag := (buildRouteTree_agrees fs fuel cache file parent hcache).1
    rw [h] at hag
    exact routeTreeSpec_terminates_on fs reachable rank hacyclic fuel file parent hfile hfuel
      hag.symm

/-- Witness of C14: the root file that resolves to itself recurses forever,
and the acyclic example tree terminates at every depth above one. -/
theorem buildRouteTree_cycle_witness :
    (∀ fuel, buildRouteTree selfLoopFs fuel [] appRoutingFile [] = .diverge) ∧
    (∀ fuel, 1 < fuel →
      buildRouteTree (exampleFs adminFirstText) fuel [] appRoutingFile [] ≠ .diverge) :=
  ⟨fun fuel =>
    ((buildRouteTree_cycle selfLoopFs).1
      (fun f => f = appRoutingFile ∨ f = resolvedAppRoutingFile) selfLoopFs_cycle
      appRoutingFile (Or.inl rfl) fuel [] [] (cacheOK_nil _)).2 selfLoopFs_readable,
   fun fuel hfuel =>
    (buildRouteTree_cycle (exampleFs adminFirstText)).2 (fun _ => True) exampleRank
      (fun f content d g _ hr hd hc => ⟨trivial, exampleFs_acyclic f content d g hr hd hc⟩)
      appRoutingFile trivial fuel [] [] (cacheOK_nil _) hfuel⟩

end ExtractRoutes
